import Mathlib

/-!
# libbloom (`bloom.c`): a shallow embedding and its properties

The C functions of `bloom.c` are rendered as Lean functions over an explicit
`struct bloom` value.  Undefined behaviour of the C program (division by zero,
an access outside the allocated block, a conversion of a `double` that does not
fit an `int`, signed overflow) is the result `none`.

What the file does not contain is taken as a parameter:
* `murmurhash2` (declared in `murmurhash2.h`) is an arbitrary function; its
  result is reduced modulo `2^32`, the range of `unsigned int`;
* the rounding of `double` / `float` arithmetic and the C library `log` are the
  fields of a `FloatEnv`;
* the outcome of `calloc` / `malloc` (a block or `NULL`) is a boolean.
Diagnostic output (`printf`) is not modelled.
-/

namespace Bloom

/-! ## Machine integers -/

/-- Largest value of a C `int` (32 bits). -/
def INT_MAX : Int := 2147483647

/-- Smallest value of a C `int` (32 bits). -/
def INT_MIN : Int := -2147483648

/-- Conversion of an `int` to `unsigned int`: reduction modulo `2^32`. -/
def toUInt (n : Int) : Nat := (n % 4294967296).toNat

/-- Conversion of an `int` to `size_t` (64 bits): reduction modulo `2^64`. -/
def toSizeT (n : Int) : Nat := (n % 18446744073709551616).toNat

/-! ## Floating point

A `double` is a finite rational, an infinity or a NaN.  The two zeros are
identified: the program never divides by a negative zero (its only variable
divisors are converted integers), and no other operation it uses tells the
zeros apart.  A rounded operation on finite values gives a finite value:
overflow to an infinity is out of reach of what the program computes, a
logarithm of a `double` multiplied or divided by converted `int`s. -/

/-- Values of the C type `double` (and of `float`, a subset). -/
inductive Double where
  | fin (q : Rat)
  | pinf
  | ninf
  | nan
deriving DecidableEq

/-- The floating-point environment: rounding to the nearest `double`, rounding
to the nearest `float`, and the C library `log` on positive finite arguments. -/
structure FloatEnv where
  rnd : Rat → Rat
  rndf : Rat → Rat
  log : Rat → Rat

namespace Double

/-- Sign of a value that is not a NaN: `-1`, `0` or `1`. -/
def sign : Double → Int
  | fin q => if 0 < q then 1 else if q < 0 then -1 else 0
  | pinf => 1
  | ninf => -1
  | nan => 0

/-- An infinity of the given sign; NaN for sign `0`. -/
def ofSign (s : Int) : Double :=
  if 0 < s then pinf else if s < 0 then ninf else nan

/-- C `==` on doubles: a NaN is equal to nothing. -/
def eq : Double → Double → Bool
  | fin a, fin b => decide (a = b)
  | pinf, pinf => true
  | ninf, ninf => true
  | _, _ => false

/-- Unary minus. -/
def neg : Double → Double
  | fin q => fin (-q)
  | pinf => ninf
  | ninf => pinf
  | nan => nan

/-- Multiplication, rounded. -/
def mul (fe : FloatEnv) : Double → Double → Double
  | fin a, fin b => fin (fe.rnd (a * b))
  | nan, _ => nan
  | _, nan => nan
  | x, y => ofSign (x.sign * y.sign)

/-- Division, rounded.  A zero divisor is the positive zero. -/
def div (fe : FloatEnv) : Double → Double → Double
  | fin a, fin b => if b = 0 then ofSign (fin a).sign else fin (fe.rnd (a / b))
  | nan, _ => nan
  | _, nan => nan
  | fin _, _ => fin 0
  | x, fin b => ofSign (x.sign * (if b < 0 then -1 else 1))
  | _, _ => nan

/-- Addition, rounded. -/
def add (fe : FloatEnv) : Double → Double → Double
  | fin a, fin b => fin (fe.rnd (a + b))
  | nan, _ => nan
  | _, nan => nan
  | pinf, ninf => nan
  | ninf, pinf => nan
  | fin _, y => y
  | x, _ => x

/-- Subtraction, rounded. -/
def sub (fe : FloatEnv) (x y : Double) : Double := add fe x (neg y)

/-- The C library `log`. -/
def log (fe : FloatEnv) : Double → Double
  | fin q => if 0 < q then fin (fe.log q) else if q = 0 then ninf else nan
  | pinf => pinf
  | ninf => nan
  | nan => nan

/-- The C library `ceil`: exact. -/
def ceil : Double → Double
  | fin q => fin (Int.ceil q)
  | x => x

/-- Conversion `(double)n` of an `int`: exact. -/
def ofInt (n : Int) : Double := fin n

/-- Conversion `(float)n` of an `int`, rounded to single precision. -/
def ofIntF (fe : FloatEnv) (n : Int) : Double := fin (fe.rndf n)

/-- Conversion `(int)x`: truncation toward zero; undefined when the value is
not finite or the truncated value is not an `int`. -/
def toInt : Double → Option Int
  | fin q =>
    let t : Int := if 0 ≤ q then Int.floor q else Int.ceil q
    if INT_MIN ≤ t ∧ t ≤ INT_MAX then some t else none
  | _ => none

end Double

/-! ## Memory -/

/-- What a pointer to bytes refers to. -/
inductive Ptr where
  | null
  | block (data : List Nat)
  | dangling
deriving DecidableEq

namespace Ptr

/-- Read of `p[i]`: defined inside a live block only. -/
def read : Ptr → Nat → Option Nat
  | block data, i => data[i]?
  | _, _ => none

/-- Store `p[i] = v` of an `unsigned char`: defined inside a live block only. -/
def write : Ptr → Nat → Nat → Option Ptr
  | block data, i, v => if i < data.length then some (block (data.set i (v % 256))) else none
  | _, _, _ => none

/-- Library `free`: a no-op on `NULL`, undefined on a pointer that is not live. -/
def free : Ptr → Option Ptr
  | null => some null
  | block _ => some dangling
  | dangling => none

end Ptr

/-- Result of `calloc(n, 1)` / `malloc(n)`: `NULL`, or a block of `n` bytes.
`calloc` zeroes the block; the bytes `malloc` returns are indeterminate, and
`bitwise_or` stores to each of them before any is read. -/
def alloc (ok : Bool) (n : Nat) : Ptr :=
  if ok then Ptr.block (List.replicate n 0) else Ptr.null

/-! ## The filter -/

/-- The record `struct bloom` of `bloom.h`. -/
structure bloom where
  entries : Int
  error : Double
  bits : Int
  bytes : Int
  hashes : Int
  bpe : Double
  bf : Ptr
  ready : Int
deriving DecidableEq

/-- The type of the hash primitive: buffer, length, seed. -/
abbrev Hash := List Nat → Int → Nat → Nat

/-- The index `x` computed by iteration `i` of the loop of `bloom_check_add`:
`(a + i*b) % bloom->bits` in `unsigned int` arithmetic. -/
def position (bits : Int) (a b i : Nat) : Nat :=
  ((a + (i * b) % 4294967296) % 4294967296) % toUInt bits

/-- One iteration of the loop of `bloom_check_add`, on the pair `(hits, *bloom)`. -/
def check_add_body (a b : Nat) (add : Int) (st : Int × bloom) (i : Nat) :
    Option (Int × bloom) :=
  if toUInt st.2.bits = 0 then none else
  let x := position st.2.bits a b i
  let byte := x >>> 3
  match st.2.bf.read byte with
  | none => none
  | some c =>
    let mask := 1 <<< (x % 8)
    if c &&& mask ≠ 0 then
      if st.1 + 1 ≤ INT_MAX then some (st.1 + 1, st.2) else none
    else if add ≠ 0 then
      match st.2.bf.write byte (c ||| mask) with
      | none => none
      | some p => some (st.1, { st.2 with bf := p })
    else some (st)

/-- Function `bloom_check_add`: returns the C result and the filter afterwards. -/
def bloom_check_add (murmurhash2 : Hash) (bl : bloom) (buffer : List Nat) (len : Int)
    (add : Int) : Option (Int × bloom) :=
  if bl.ready = 0 then some (-1, bl) else
  let a := murmurhash2 buffer len 0x9747b28c % 4294967296
  let b := murmurhash2 buffer len a % 4294967296
  match (List.range (toUInt bl.hashes)).foldlM (check_add_body a b add) (0, bl) with
  | none => none
  | some (hits, bl1) => if hits = bl1.hashes then some (1, bl1) else some (0, bl1)

/-- Function `bloom_init`; `calloc_ok` tells whether `calloc` returns a block. -/
def bloom_init (fe : FloatEnv) (calloc_ok : Bool) (bl : bloom) (entries : Int)
    (error : Double) : Option (Int × bloom) :=
  let bl : bloom := { bl with ready := 0 }
  if entries < 1 ∨ error.eq (Double.fin 0) = true then some (1, bl) else
  let bl : bloom := { bl with entries := entries, error := error }
  let num := Double.log fe bl.error
  let denom := Double.fin (fe.rnd (480453013918201 / 1000000000000000))
  let bl : bloom := { bl with bpe := (num.div fe denom).neg }
  let dentries := Double.ofInt entries
  match (dentries.mul fe bl.bpe).toInt with
  | none => none
  | some bits =>
    let bl : bloom := { bl with bits := bits }
    let bl : bloom :=
      { bl with bytes := if bl.bits.tmod 8 ≠ 0 then bl.bits.tdiv 8 + 1 else bl.bits.tdiv 8 }
    match (((Double.fin (fe.rnd (693147180559945 / 1000000000000000))).mul fe bl.bpe).ceil).toInt with
    | none => none
    | some hashes =>
      let bl : bloom := { bl with hashes := hashes }
      let bl : bloom := { bl with bf := alloc calloc_ok (toSizeT bl.bytes) }
      if bl.bf = Ptr.null then some (1, bl) else
      some (0, { bl with ready := 1 })

/-- Library `memcpy(dst, src, n)` from the caller's array `src`: undefined when
either side is shorter than `n` bytes. -/
def memcpy (dst : Ptr) (src : List Nat) (n : Nat) : Option Ptr :=
  match dst with
  | Ptr.block data =>
    if n ≤ data.length ∧ n ≤ src.length then some (Ptr.block (src.take n ++ data.drop n))
    else none
  | _ => if n = 0 then some dst else none

/-- Function `bloom_init_fill`; `data` is the caller's array. -/
def bloom_init_fill (fe : FloatEnv) (calloc_ok : Bool) (bl : bloom) (entries : Int)
    (error : Double) (data : List Nat) (len : Int) : Option (Int × bloom) :=
  match bloom_init fe calloc_ok bl entries error with
  | none => none
  | some (init_success, bl) =>
    if init_success ≠ 0 ∨ bl.bytes ≠ len then some (1, bl) else
    match memcpy bl.bf data (toSizeT len) with
    | none => none
    | some p => some (0, { bl with bf := p })

/-- Function `bloom_check`. -/
def bloom_check (murmurhash2 : Hash) (bl : bloom) (buffer : List Nat) (len : Int) :
    Option (Int × bloom) :=
  bloom_check_add murmurhash2 bl buffer len 0

/-- Function `bloom_add`. -/
def bloom_add (murmurhash2 : Hash) (bl : bloom) (buffer : List Nat) (len : Int) :
    Option (Int × bloom) :=
  bloom_check_add murmurhash2 bl buffer len 1

/-- Function `bloom_free`. -/
def bloom_free (bl : bloom) : Option bloom :=
  if bl.ready ≠ 0 then
    match bl.bf.free with
    | none => none
    | some p => some { bl with bf := p, ready := 0 }
  else some { bl with ready := 0 }

/-- The inner loop of `count_bits`: `for (; c; c >>= 1) bits += c & 1;`. -/
def count_bits_byte (c : Nat) (bits : Int) : Option Int :=
  if c = 0 then some bits
  else if bits + ((c &&& 1 : Nat) : Int) ≤ INT_MAX then
    count_bits_byte (c >>> 1) (bits + ((c &&& 1 : Nat) : Int))
  else none
termination_by c
decreasing_by
  rename_i h _
  rw [Nat.shiftRight_eq_div_pow]
  exact Nat.div_lt_self (Nat.pos_of_ne_zero h) (by norm_num)

/-- Function `count_bits`. -/
def count_bits (cs : Ptr) (bytes : Int) : Option Int :=
  (List.range bytes.toNat).foldlM
    (fun bits i =>
      match cs.read i with
      | none => none
      | some c => count_bits_byte c bits)
    0

/-- Function `bitwise_or`; `malloc_ok` tells whether `malloc` returns a block. -/
def bitwise_or (malloc_ok : Bool) (c1 c2 : Ptr) (len : Int) : Option Ptr :=
  (List.range len.toNat).foldlM
    (fun res i =>
      match c1.read i, c2.read i with
      | some x, some y => res.write i (x ||| y)
      | _, _ => none)
    (alloc malloc_ok (toSizeT len))

/-- The expression `-1.0*m*log(1.0-(float)n/m)/k` of `bloom_intersect_est`. -/
def estimate (fe : FloatEnv) (m k : Double) (n : Int) : Double :=
  (((Double.fin (-1)).mul fe m).mul fe
    (Double.log fe ((Double.fin 1).sub fe ((Double.ofIntF fe n).div fe m)))).div fe k

/-- Function `bloom_intersect_est`: returns the estimate and both filters
afterwards. -/
def bloom_intersect_est (fe : FloatEnv) (malloc_ok : Bool) (b1 b2 : bloom) :
    Option (Double × bloom × bloom) :=
  if b1.bits ≠ b2.bits ∨ b1.hashes ≠ b2.hashes then some (Double.fin (-1), b1, b2) else
  let m := Double.ofIntF fe b1.bits
  let k := Double.ofIntF fe b1.hashes
  let bytes := b1.bytes
  match bitwise_or malloc_ok b1.bf b2.bf bytes with
  | none => none
  | some abunion =>
    match count_bits b1.bf bytes, count_bits b2.bf bytes, count_bits abunion bytes with
    | some ca, some cb, some cab =>
      let na := estimate fe m k ca
      let nb := estimate fe m k cb
      let nab := estimate fe m k cab
      some ((na.add fe nb).sub fe nab, b1, b2)
    | _, _, _ => none

/-! ## The sizing computed by `bloom_init` -/

/-- The value `bloom_init` stores in `bpe`. -/
def sizing_bpe (fe : FloatEnv) (error : Double) : Double :=
  ((Double.log fe error).div fe (Double.fin (fe.rnd (480453013918201 / 1000000000000000)))).neg

/-- The value `bloom_init` stores in `bits`, when the conversion is defined. -/
def sizing_bits (fe : FloatEnv) (entries : Int) (error : Double) : Option Int :=
  ((Double.ofInt entries).mul fe (sizing_bpe fe error)).toInt

/-- The value `bloom_init` stores in `bytes`. -/
def sizing_bytes (bits : Int) : Int :=
  if bits.tmod 8 ≠ 0 then bits.tdiv 8 + 1 else bits.tdiv 8

/-- The value `bloom_init` stores in `hashes`, when the conversion is defined. -/
def sizing_hashes (fe : FloatEnv) (error : Double) : Option Int :=
  (((Double.fin (fe.rnd (693147180559945 / 1000000000000000))).mul fe
    (sizing_bpe fe error)).ceil).toInt

/-! ## Vocabulary of the statements -/

/-- Whether bit `x` of the buffer is set, tested as the loop of `bloom_check_add`
tests it: mask `1 << (x % 8)` in byte `x >> 3`. -/
def Ptr.bit (p : Ptr) (x : Nat) : Bool :=
  match p.read (x >>> 3) with
  | some c => decide (c &&& (1 <<< (x % 8)) ≠ 0)
  | none => false

/-- First hash value `a` of an input. -/
def hash_a (murmurhash2 : Hash) (buffer : List Nat) (len : Int) : Nat :=
  murmurhash2 buffer len 0x9747b28c % 4294967296

/-- Second hash value `b` of an input, seeded with the first. -/
def hash_b (murmurhash2 : Hash) (buffer : List Nat) (len : Int) : Nat :=
  murmurhash2 buffer len (hash_a murmurhash2 buffer len) % 4294967296

/-- The `i`-th derived bit position of an input on a filter. -/
def derived (murmurhash2 : Hash) (bl : bloom) (buffer : List Nat) (len : Int) (i : Nat) : Nat :=
  position bl.bits (hash_a murmurhash2 buffer len)
        (hash_b murmurhash2 buffer len) i

/-- All `hashes` derived bit positions of an input are set in the buffer. -/
def all_set (murmurhash2 : Hash) (bl : bloom) (buffer : List Nat) (len : Int) : Prop :=
  ∀ i, i < toUInt bl.hashes → bl.bf.bit (derived murmurhash2 bl buffer len i) = true

/-- The shape of a ready filter: what a successful `bloom_init` establishes and
every later operation keeps. -/
structure Ready (bl : bloom) : Prop where
  ready : bl.ready ≠ 0
  bits_nonneg : 0 ≤ bl.bits
  bits_le : bl.bits ≤ INT_MAX
  hashes_nonneg : 0 ≤ bl.hashes
  hashes_le : bl.hashes ≤ INT_MAX
  bytes_eq : bl.bytes = if bl.bits.tmod 8 ≠ 0 then bl.bits.tdiv 8 + 1 else bl.bits.tdiv 8
  buffer : ∃ data, bl.bf = Ptr.block data ∧ data.length = toSizeT bl.bytes

/-- The relation between a filter and a later state of it: no field but the
block differs, and a block keeps its length. -/
def same_shape (s t : bloom) : Prop :=
  t = { s with bf := t.bf } ∧
    ∀ data, s.bf = Ptr.block data → ∃ data1, t.bf = Ptr.block data1 ∧ data1.length = data.length

/-- A call of the query interface. -/
inductive Op where
  | add (buffer : List Nat) (len : Int)
  | check (buffer : List Nat) (len : Int)

/-- The filter after a sequence of `bloom_add` / `bloom_check` calls. -/
def run (murmurhash2 : Hash) : List Op → bloom → Option bloom
  | [], bl => some bl
  | Op.add buffer len :: ops, bl =>
    match bloom_add murmurhash2 bl buffer len with
    | none => none
    | some (_, bl1) => run murmurhash2 ops bl1
  | Op.check buffer len :: ops, bl =>
    match bloom_check murmurhash2 bl buffer len with
    | none => none
    | some (_, bl1) => run murmurhash2 ops bl1

/-! ## Worked examples -/

/-- A hash function for the worked examples. -/
def hash0 : Hash := fun buffer len seed => buffer.sum + len.toNat + seed

/-- A floating-point environment for the worked examples: exact arithmetic, and
a `log` that is a table of five-digit values at the arguments used. -/
def fe0 : FloatEnv :=
  { rnd := id, rndf := id,
    log := fun q => if q = 9 / 10 then -10536 / 100000 else if q = 1 / 2 then -69315 / 100000
      else if q = 1 / 100 then -460517 / 100000 else q - 1 }

/-- A `struct bloom` that no function has written to yet. -/
def blank : bloom :=
  { entries := 0, error := Double.nan, bits := 0, bytes := 0, hashes := 0, bpe := Double.nan,
    bf := Ptr.dangling, ready := 0 }

/-- The filter that `bloom_init` builds for one entry and error rate `0.01`:
9 bits, 2 bytes, 7 hash positions, all bits clear. -/
def filter9 : bloom :=
  { entries := 1, error := Double.fin (1 / 100), bits := 9, bytes := 2, hashes := 7,
    bpe := Double.fin (-((-460517 / 100000) / (480453013918201 / 1000000000000000))),
    bf := Ptr.block [0, 0], ready := 1 }

/-- The filter that `bloom_init` builds for one entry and error rate `0.9`:
ready, with no bit at all and one hash position. -/
def tiny : bloom :=
  { entries := 1, error := Double.fin (9 / 10), bits := 0, bytes := 0, hashes := 1,
    bpe := Double.fin (-((-10536 / 100000) / (480453013918201 / 1000000000000000))),
    bf := Ptr.block [], ready := 1 }

/-- The filter `filter9` after `bloom_free`: not ready, its block released. -/
def released9 : bloom := { filter9 with bf := Ptr.dangling, ready := 0 }

/-- The environment `fe0` with two more arguments in the table of `log`. -/
def fe1 : FloatEnv :=
  { rnd := id, rndf := id,
    log := fun q => if q = 3 then 109861 / 100000 else if q = 3 / 2 then 40547 / 100000
      else fe0.log q }

/-- The environment `fe1` with one more argument in the table of `log`. -/
def fe2 : FloatEnv :=
  { rnd := id, rndf := id,
    log := fun q => if q = 2 / 9 then -150408 / 100000 else fe1.log q }

/-- The filter that `bloom_init` builds for one entry and error rate `3.0`:
ready, with a negative bit count and a negative hash count. -/
def filter_err3 : bloom :=
  { entries := 1, error := Double.fin 3, bits := -2, bytes := 1, hashes := -1,
    bpe := Double.fin (-((109861 / 100000) / (480453013918201 / 1000000000000000))),
    bf := Ptr.block [0], ready := 1 }

/-- The filter that `bloom_init` builds for two entries and error rate `1.5`:
ready, with bit count `-1`, one byte and no hash position. -/
def filter_err15 : bloom :=
  { entries := 2, error := Double.fin (3 / 2), bits := -1, bytes := 1, hashes := 0,
    bpe := Double.fin (-((40547 / 100000) / (480453013918201 / 1000000000000000))),
    bf := Ptr.block [0], ready := 1 }

/-- A hash function whose first value is `2^32 - 1` and whose second value is `1`. -/
def hash_wrap : Hash := fun _ _ seed => if seed = 0x9747b28c then 4294967295 else 1

/-- Number of calls of the library `free` that `bloom_free` makes. -/
def bloom_free_calls (bl : bloom) : Nat :=
  if bl.ready ≠ 0 then 1 else 0

/-- The bytes of a block are values of type `unsigned char`. -/
def is_bytes (data : List Nat) : Prop := ∀ c, c ∈ data → c < 256

/-- The filter `filter9` with all of its 9 bits set. -/
def sat9 : bloom := { filter9 with bf := Ptr.block [255, 1] }

/-- The filter `filter9` after `bloom_add` of the input `[1, 2]`: 7 bits set. -/
def added9 : bloom := { filter9 with bf := Ptr.block [254, 0] }

/-- No bit of the block at a position from `bits` on is set, and the block
holds `unsigned char` values. -/
def padding_clear (bl : bloom) : Prop :=
  (∀ y, bl.bf.bit y = true → (y : Int) < bl.bits) ∧
    ∀ data, bl.bf = Ptr.block data → is_bytes data

/-! ## Bits of a byte buffer -/

theorem mask_ne_zero_iff (c k : Nat) : c &&& (1 <<< k) ≠ 0 ↔ c.testBit k = true := by
  rw [Nat.one_shiftLeft, Nat.and_two_pow]
  cases h : c.testBit k <;> simp

theorem bit_block (data : List Nat) (x : Nat) :
    (Ptr.block data).bit x = true ↔ ∃ c, data[x / 8]? = some c ∧ c.testBit (x % 8) = true := by
  unfold Ptr.bit Ptr.read
  rw [Nat.shiftRight_eq_div_pow]
  cases h : data[x / 2 ^ 3]? with
  | none => simp [show x / 8 = x / 2 ^ 3 from rfl, h]
  | some c =>
    simp only [decide_eq_true_eq, show x / 8 = x / 2 ^ 3 from rfl, h]
    rw [mask_ne_zero_iff]
    simp

theorem bit_block_mask (data : List Nat) (x : Nat) :
    (Ptr.block data).bit x = true ↔
      ∃ c, data[x / 8]? = some c ∧ c &&& (1 <<< (x % 8)) ≠ 0 := by
  rw [bit_block]
  simp only [mask_ne_zero_iff]

theorem bit_block_set (data : List Nat) (x c : Nat) (hc : data[x / 8]? = some c) (y : Nat) :
    (Ptr.block (data.set (x / 8) ((c ||| 1 <<< (x % 8)) % 256))).bit y = true ↔
      ((Ptr.block data).bit y = true ∨ y = x) := by
  have hlt : x / 8 < data.length := by
    by_contra hge
    rw [List.getElem?_eq_none (by omega)] at hc
    cases hc
  rw [bit_block, bit_block, List.getElem?_set]
  by_cases hxy : x / 8 = y / 8
  · rw [if_pos hxy, if_pos hlt, ← hxy, hc]
    have hy8 : y % 8 < 8 := Nat.mod_lt _ (by norm_num)
    have h256 : (256 : Nat) = 2 ^ 8 := by norm_num
    simp only [Option.some.injEq, exists_eq_left', h256, Nat.testBit_mod_two_pow, Nat.testBit_or,
      Nat.one_shiftLeft, Nat.testBit_two_pow, hy8, decide_True, Bool.true_and, Bool.or_eq_true,
      decide_eq_true_eq]
    constructor
    · rintro (h | h)
      · exact Or.inl h
      · right; omega
    · rintro (h | h)
      · exact Or.inl h
      · right; subst h; rfl
  · rw [if_neg hxy]
    constructor
    · exact fun h => Or.inl h
    · rintro (h | h)
      · exact h
      · subst h; exact absurd rfl hxy

theorem shr3 (x : Nat) : x >>> 3 = x / 8 := by
  rw [Nat.shiftRight_eq_div_pow]

theorem bit_of_read (p : Ptr) (x c : Nat) (h : p.read (x >>> 3) = some c) :
    p.bit x = true ↔ c &&& (1 <<< (x % 8)) ≠ 0 := by
  unfold Ptr.bit
  rw [h]
  simp

/-! ## The loop of `bloom_check_add` -/

theorem foldlM_range_succ {σ : Type} (f : σ → Nat → Option σ) (s : σ) (n : Nat) :
    (List.range (n + 1)).foldlM f s = ((List.range n).foldlM f s).bind (fun t => f t n) := by
  rw [List.range_succ, List.foldlM_append]
  cases (List.range n).foldlM f s <;> simp

/-- The state after `n` iterations of the loop, started with `hits = 0` on a
filter whose block covers every derived position: the block holds the old bits
and, when adding, the first `n` derived positions; `hits` equals `n` exactly
when the first `n` derived positions were all set at the start. -/
theorem check_add_loop_spec (a b : Nat) (add : Int) (bl : bloom) (data : List Nat)
    (hbf : bl.bf = Ptr.block data) (hbits : toUInt bl.bits ≠ 0)
    (hlen : ∀ i, position bl.bits a b i / 8 < data.length)
    (n : Nat) (hn : (n : Int) ≤ INT_MAX) :
    ∃ (hits : Int) (data1 : List Nat),
      (List.range n).foldlM (check_add_body a b add) (0, bl)
        = some (hits, { bl with bf := Ptr.block data1 }) ∧
      data1.length = data.length ∧
      (add = 0 → data1 = data) ∧
      (∀ y, (Ptr.block data1).bit y = true ↔
        ((Ptr.block data).bit y = true ∨ (add ≠ 0 ∧ ∃ i, i < n ∧ position bl.bits a b i = y))) ∧
      0 ≤ hits ∧ hits ≤ n ∧
      (hits = n ↔ ∀ i, i < n → (Ptr.block data).bit (position bl.bits a b i) = true) := by
  induction n with
  | zero =>
    refine ⟨0, data, ?_, rfl, fun _ => rfl, ?_, le_refl _, le_refl _, ?_⟩
    · simp [← hbf]
    · intro y; simp
    · simp
  | succ n ih =>
    obtain ⟨hits, data1, hrun, hlen1, hsame, hbit, h0, hle, hall⟩ :=
      ih (by push_cast at hn; omega)
    rw [foldlM_range_succ, hrun, Option.some_bind]
    have hx : position bl.bits a b n / 8 < data1.length := by rw [hlen1]; exact hlen n
    obtain ⟨c, hc⟩ : ∃ c, data1[position bl.bits a b n / 8]? = some c :=
      ⟨data1[position bl.bits a b n / 8], List.getElem?_eq_getElem hx⟩
    have hread : (Ptr.block data1).read (position bl.bits a b n >>> 3) = some c := by
      rw [shr3]; exact hc
    have hbitx := bit_of_read (Ptr.block data1) (position bl.bits a b n) c hread
    -- a set bit of the old block stays set in the current block
    have hmono : ∀ y, (Ptr.block data).bit y = true → (Ptr.block data1).bit y = true :=
      fun y hy => (hbit y).2 (Or.inl hy)
    -- when the first `n` positions were set at the start, the current block agrees
    -- with the old one on position `n`
    have hback : (∀ i, i < n → (Ptr.block data).bit (position bl.bits a b i) = true) →
        (Ptr.block data1).bit (position bl.bits a b n) = true →
        (Ptr.block data).bit (position bl.bits a b n) = true := by
      intro hprev hcur
      rcases (hbit _).1 hcur with h | ⟨_, i, hi, hpos⟩
      · exact h
      · rw [← hpos]; exact hprev i hi
    unfold check_add_body
    simp only [hbits, if_false, hread]
    by_cases hset : c &&& (1 <<< (position bl.bits a b n % 8)) ≠ 0
    · -- hit
      have hcur : (Ptr.block data1).bit (position bl.bits a b n) = true := hbitx.2 hset
      have hinc : hits + 1 ≤ INT_MAX := by push_cast at hn; omega
      rw [if_pos hset, if_pos hinc]
      refine ⟨hits + 1, data1, rfl, hlen1, hsame, ?_, by omega, by push_cast; omega, ?_⟩
      · intro y
        rw [hbit y]
        constructor
        · rintro (h | ⟨ha, i, hi, hpos⟩)
          · exact Or.inl h
          · exact Or.inr ⟨ha, i, by omega, hpos⟩
        · rintro (h | ⟨ha, i, hi, hpos⟩)
          · exact Or.inl h
          · by_cases hin : i < n
            · exact Or.inr ⟨ha, i, hin, hpos⟩
            · have : i = n := by omega
              subst this
              rw [← hbit y, ← hpos]
              exact hcur
      · push_cast
        constructor
        · intro h i hi
          have hprev := hall.1 (by omega)
          by_cases hin : i < n
          · exact hprev i hin
          · have : i = n := by omega
            subst this
            exact hback hprev hcur
        · intro h
          have := hall.2 (fun i hi => h i (by omega))
          omega
    · -- miss
      have hcur : ¬ (Ptr.block data1).bit (position bl.bits a b n) = true :=
        fun h => hset (hbitx.1 h)
      have hold : ¬ (Ptr.block data).bit (position bl.bits a b n) = true :=
        fun h => hcur (hmono _ h)
      have hhits : (hits = ((n + 1 : Nat) : Int) ↔
          ∀ i, i < n + 1 → (Ptr.block data).bit (position bl.bits a b i) = true) := by
        constructor
        · intro h; push_cast at h; omega
        · intro h; exact absurd (h n (by omega)) hold
      rw [if_neg hset]
      by_cases hadd : add = 0
      · rw [if_neg (not_not.mpr hadd)]
        refine ⟨hits, data1, rfl, hlen1, hsame, ?_, h0, by push_cast; omega, hhits⟩
        intro y
        rw [hbit y]
        simp [hadd]
      · have hw : (Ptr.block data1).write (position bl.bits a b n >>> 3)
            (c ||| 1 <<< (position bl.bits a b n % 8))
            = some (Ptr.block (data1.set (position bl.bits a b n / 8)
                ((c ||| 1 <<< (position bl.bits a b n % 8)) % 256))) := by
          simp [Ptr.write, shr3, hx]
        rw [if_pos hadd, hw]
        refine ⟨hits, _, rfl, by rw [List.length_set]; exact hlen1, fun h => absurd h hadd, ?_,
          h0, by push_cast; omega, hhits⟩
        intro y
        rw [bit_block_set data1 _ c hc y, hbit y]
        constructor
        · rintro ((h | ⟨ha, i, hi, hpos⟩) | h)
          · exact Or.inl h
          · exact Or.inr ⟨ha, i, by omega, hpos⟩
          · exact Or.inr ⟨hadd, n, by omega, h.symm⟩
        · rintro (h | ⟨ha, i, hi, hpos⟩)
          · exact Or.inl (Or.inl h)
          · by_cases hin : i < n
            · exact Or.inl (Or.inr ⟨ha, i, hin, hpos⟩)
            · have : i = n := by omega
              subst this
              exact Or.inr hpos.symm

/-! ## Ready filters -/

theorem Ready.toUInt_bits_ne_zero {bl : bloom} (hr : Ready bl) (h1 : 1 ≤ bl.bits) :
    toUInt bl.bits ≠ 0 := by
  have h0 := hr.bits_le
  unfold INT_MAX at h0
  unfold toUInt
  omega

theorem Ready.toUInt_hashes {bl : bloom} (hr : Ready bl) : ((toUInt bl.hashes : Nat) : Int) = bl.hashes := by
  have h0 := hr.hashes_le
  have h1 := hr.hashes_nonneg
  unfold INT_MAX at h0
  unfold toUInt
  omega

/-- On a ready filter with at least one bit, every derived position lies in the block. -/
theorem Ready.covers {bl : bloom} (hr : Ready bl) (h1 : 1 ≤ bl.bits) (data : List Nat)
    (hbf : bl.bf = Ptr.block data) (a b i : Nat) :
    position bl.bits a b i < toUInt bl.bits ∧ position bl.bits a b i / 8 < data.length := by
  have hpos : position bl.bits a b i < toUInt bl.bits :=
    Nat.mod_lt _ (Nat.pos_of_ne_zero (hr.toUInt_bits_ne_zero h1))
  refine ⟨hpos, ?_⟩
  obtain ⟨d, hd, hdl⟩ := hr.buffer
  rw [hbf] at hd
  cases hd
  rw [hdl]
  have hb := hr.bytes_eq
  have h0 := hr.bits_le
  rw [Int.tmod_eq_emod (by omega) (by norm_num), Int.tdiv_eq_ediv (by omega) (by norm_num)] at hb
  unfold INT_MAX at h0
  unfold toUInt at hpos
  unfold toSizeT
  split_ifs at hb <;> omega

/-- One iteration of the loop of `bloom_check_add` on a filter whose block holds
byte `c` at index `x >> 3`, with `x` the position of the iteration: a hit when
`c & (1 << (x % 8))` is not zero; otherwise, when adding, the byte is stored
with that mask set. -/
theorem check_add_body_block (a b : Nat) (add hits : Int) (bl : bloom) (i : Nat)
    (data : List Nat) (c : Nat) (hbf : bl.bf = Ptr.block data) (hbits : toUInt bl.bits ≠ 0)
    (hc : data[position bl.bits a b i >>> 3]? = some c) :
    check_add_body a b add (hits, bl) i =
      if c &&& (1 <<< (position bl.bits a b i % 8)) ≠ 0 then
        (if hits + 1 ≤ INT_MAX then some (hits + 1, bl) else none)
      else if add ≠ 0 then
        some (hits, { bl with bf := Ptr.block (data.set (position bl.bits a b i >>> 3)
          ((c ||| (1 <<< (position bl.bits a b i % 8))) % 256)) })
      else some (hits, bl) := by
  have hlt : position bl.bits a b i >>> 3 < data.length := by
    by_contra hge
    rw [List.getElem?_eq_none (by omega)] at hc
    cases hc
  have hread : bl.bf.read (position bl.bits a b i >>> 3) = some c := by
    rw [hbf]; exact hc
  unfold check_add_body
  simp only [hbits, if_false]
  change (match bl.bf.read (position bl.bits a b i >>> 3) with
    | none => none
    | some c => _) = _
  rw [hread]
  simp only
  by_cases hset : c &&& (1 <<< (position bl.bits a b i % 8)) ≠ 0
  · rw [if_pos hset, if_pos hset]
  · rw [if_neg hset, if_neg hset]
    by_cases hadd : add ≠ 0
    · rw [if_pos hadd, if_pos hadd]
      have hw : bl.bf.write (position bl.bits a b i >>> 3)
          (c ||| 1 <<< (position bl.bits a b i % 8))
          = some (Ptr.block (data.set (position bl.bits a b i >>> 3)
              ((c ||| 1 <<< (position bl.bits a b i % 8)) % 256))) := by
        rw [hbf]
        simp [Ptr.write, hlt]
      change (match bl.bf.write (position bl.bits a b i >>> 3)
          (c ||| 1 <<< (position bl.bits a b i % 8)) with
        | none => none
        | some p => _) = _
      rw [hw]
    · rw [if_neg hadd, if_neg hadd]

theorem Ready.toUInt_bits_toNat {bl : bloom} (hr : Ready bl) : toUInt bl.bits = bl.bits.toNat := by
  have h0 := hr.bits_le
  have h2 := hr.bits_nonneg
  unfold INT_MAX at h0
  unfold toUInt
  omega

theorem Ready.toUInt_hashes_toNat {bl : bloom} (hr : Ready bl) :
    toUInt bl.hashes = bl.hashes.toNat := by
  have h0 := hr.hashes_le
  have h2 := hr.hashes_nonneg
  unfold INT_MAX at h0
  unfold toUInt
  omega

/-- On a ready filter `bloom_check_add` runs the loop body for `i = 0 .. hashes - 1`
on the two hash values of the input, and compares the hits with `hashes`. -/
theorem bloom_check_add_fold (murmurhash2 : Hash) (bl : bloom) (hr : Ready bl)
    (buffer : List Nat) (len : Int) (add : Int) :
    bloom_check_add murmurhash2 bl buffer len add =
      ((List.range bl.hashes.toNat).foldlM
        (check_add_body (murmurhash2 buffer len 0x9747b28c % 4294967296)
          (murmurhash2 buffer len (murmurhash2 buffer len 0x9747b28c % 4294967296) % 4294967296)
          add)
        (0, bl)).bind (fun st => some (if st.1 = st.2.hashes then 1 else 0, st.2)) := by
  unfold bloom_check_add
  rw [if_neg hr.ready, hr.toUInt_hashes_toNat]
  cases h : (List.range bl.hashes.toNat).foldlM
      (check_add_body (murmurhash2 buffer len 0x9747b28c % 4294967296)
        (murmurhash2 buffer len (murmurhash2 buffer len 0x9747b28c % 4294967296)
          % 4294967296) add) (0, bl) with
  | none => simp only [h, Option.none_bind]
  | some st =>
    obtain ⟨hits, bl1⟩ := st
    simp only [h, Option.some_bind]
    split_ifs <;> rfl

/-- What `bloom_check_add` does on a ready filter with at least one bit: it
returns `1` when all derived positions were set before the call and `0`
otherwise; only the block can change, keeping its length; without `add` the
block is unchanged, with `add` it gains exactly the derived positions. -/
theorem bloom_check_add_spec (murmurhash2 : Hash) (bl : bloom) (hr : Ready bl)
    (h1 : 1 ≤ bl.bits) (data : List Nat) (hbf : bl.bf = Ptr.block data)
    (buffer : List Nat) (len : Int) (add : Int) :
    ∃ (r : Int) (data1 : List Nat),
      bloom_check_add murmurhash2 bl buffer len add
        = some (r, { bl with bf := Ptr.block data1 }) ∧
      data1.length = data.length ∧
      (add = 0 → data1 = data) ∧
      (∀ y, (Ptr.block data1).bit y = true ↔
        ((Ptr.block data).bit y = true ∨
          (add ≠ 0 ∧ ∃ i, i < toUInt bl.hashes ∧ derived murmurhash2 bl buffer len i = y))) ∧
      (r = 1 ↔ all_set murmurhash2 bl buffer len) ∧
      (r = 0 ↔ ¬ all_set murmurhash2 bl buffer len) := by
  have hn : ((toUInt bl.hashes : Nat) : Int) ≤ INT_MAX := by
    rw [hr.toUInt_hashes]; exact hr.hashes_le
  obtain ⟨hits, data1, hrun, hlen1, hsame, hbit, _, _, hall⟩ :=
    check_add_loop_spec (hash_a murmurhash2 buffer len) (hash_b murmurhash2 buffer len) add bl data
      hbf (hr.toUInt_bits_ne_zero h1) (fun i => (hr.covers h1 data hbf _ _ i).2)
      (toUInt bl.hashes) hn
  rw [hr.toUInt_hashes] at hall
  have hall1 : hits = bl.hashes ↔ all_set murmurhash2 bl buffer len := by
    rw [hall]
    unfold all_set derived
    rw [hbf]
  unfold bloom_check_add
  rw [if_neg hr.ready]
  simp only [hash_a, hash_b] at hrun
  simp only [hrun]
  by_cases hh : hits = bl.hashes
  · rw [if_pos hh]
    refine ⟨1, data1, rfl, hlen1, hsame, hbit, ?_, ?_⟩
    · simp [hall1.1 hh]
    · simp [hall1.1 hh]
  · rw [if_neg hh]
    refine ⟨0, data1, rfl, hlen1, hsame, hbit, ?_, ?_⟩
    · have hns : ¬ all_set murmurhash2 bl buffer len := fun h => hh (hall1.2 h)
      simp [hns]
    · have hns : ¬ all_set murmurhash2 bl buffer len := fun h => hh (hall1.2 h)
      simp [hns]

/-- The operation `bloom_check_add` keeps a ready filter ready. -/
theorem Ready.check_add {murmurhash2 : Hash} {bl bl1 : bloom} (hr : Ready bl) (h1 : 1 ≤ bl.bits)
    {buffer : List Nat} {len add r : Int}
    (h : bloom_check_add murmurhash2 bl buffer len add = some (r, bl1)) :
    Ready bl1 ∧ bl1.bits = bl.bits ∧ bl1.hashes = bl.hashes ∧ bl1.bytes = bl.bytes ∧
      bl1.entries = bl.entries ∧ bl1.error = bl.error ∧ bl1.bpe = bl.bpe ∧ bl1.ready = bl.ready := by
  obtain ⟨data, hbf, hdl⟩ := hr.buffer
  obtain ⟨r1, data1, hspec, hlen1, -⟩ :=
    bloom_check_add_spec murmurhash2 bl hr h1 data hbf buffer len add
  rw [hspec] at h
  cases h
  refine ⟨⟨hr.ready, hr.bits_nonneg, hr.bits_le, hr.hashes_nonneg, hr.hashes_le, hr.bytes_eq,
    data1, rfl, by rw [hlen1]; exact hdl⟩, rfl, rfl, rfl, rfl, rfl, rfl, rfl⟩

/-- A sequence of calls on a ready filter with at least one bit runs to the
end, keeps the filter ready, changes no field but the block, and clears no bit. -/
theorem run_spec (murmurhash2 : Hash) (ops : List Op) (bl : bloom) (hr : Ready bl)
    (h1 : 1 ≤ bl.bits) :
    ∃ bl1, run murmurhash2 ops bl = some bl1 ∧ Ready bl1 ∧ bl1.bits = bl.bits ∧
      bl1.hashes = bl.hashes ∧ bl1.bytes = bl.bytes ∧ bl1.entries = bl.entries ∧
      bl1.error = bl.error ∧ bl1.bpe = bl.bpe ∧ bl1.ready = bl.ready ∧
      ∀ y, bl.bf.bit y = true → bl1.bf.bit y = true := by
  induction ops generalizing bl with
  | nil => exact ⟨bl, rfl, hr, rfl, rfl, rfl, rfl, rfl, rfl, rfl, fun _ h => h⟩
  | cons op ops ih =>
    obtain ⟨data, hbf, -⟩ := hr.buffer
    have step : ∀ (buffer : List Nat) (len add : Int),
        ∃ r bl1, bloom_check_add murmurhash2 bl buffer len add = some (r, bl1) ∧
          ∀ y, bl.bf.bit y = true → bl1.bf.bit y = true := by
      intro buffer len add
      obtain ⟨r, data1, hspec, -, -, hbit, -⟩ :=
        bloom_check_add_spec murmurhash2 bl hr h1 data hbf buffer len add
      exact ⟨r, _, hspec, fun y hy => (hbit y).2 (Or.inl (hbf ▸ hy))⟩
    have next : ∀ (r : Int) (bl1 : bloom) (buffer : List Nat) (len add : Int),
        bloom_check_add murmurhash2 bl buffer len add = some (r, bl1) →
        (∀ y, bl.bf.bit y = true → bl1.bf.bit y = true) →
        ∃ bl2, run murmurhash2 ops bl1 = some bl2 ∧ Ready bl2 ∧ bl2.bits = bl.bits ∧
          bl2.hashes = bl.hashes ∧ bl2.bytes = bl.bytes ∧ bl2.entries = bl.entries ∧
          bl2.error = bl.error ∧ bl2.bpe = bl.bpe ∧ bl2.ready = bl.ready ∧
          ∀ y, bl.bf.bit y = true → bl2.bf.bit y = true := by
      intro r bl1 buffer len add hcall hmono
      obtain ⟨hr1, e1, e2, e3, e4, e5, e6, e7⟩ := hr.check_add h1 hcall
      obtain ⟨bl2, hrun, hr2, f1, f2, f3, f4, f5, f6, f7, hm⟩ := ih bl1 hr1 (by rw [e1]; exact h1)
      exact ⟨bl2, hrun, hr2, f1.trans e1, f2.trans e2, f3.trans e3, f4.trans e4, f5.trans e5,
        f6.trans e6, f7.trans e7, fun y hy => hm y (hmono y hy)⟩
    cases op with
    | add buffer len =>
      obtain ⟨r, bl1, hcall, hmono⟩ := step buffer len 1
      obtain ⟨bl2, hrun, rest⟩ := next r bl1 buffer len 1 hcall hmono
      refine ⟨bl2, ?_, rest⟩
      simp only [run, bloom_add, hcall, hrun]
    | check buffer len =>
      obtain ⟨r, bl1, hcall, hmono⟩ := step buffer len 0
      obtain ⟨bl2, hrun, rest⟩ := next r bl1 buffer len 0 hcall hmono
      refine ⟨bl2, ?_, rest⟩
      simp only [run, bloom_check, hcall, hrun]

/-- Whether all derived positions are set depends on the filter through its
bit count, hash count and block only. -/
theorem all_set_congr (murmurhash2 : Hash) (bl bl1 : bloom) (buffer : List Nat) (len : Int)
    (hb : bl1.bits = bl.bits) (hh : bl1.hashes = bl.hashes)
    (hbit : ∀ y, bl.bf.bit y = true → bl1.bf.bit y = true)
    (h : all_set murmurhash2 bl buffer len) : all_set murmurhash2 bl1 buffer len := by
  intro i hi
  rw [hh] at hi
  have := hbit _ (h i hi)
  unfold derived at this ⊢
  rw [hb]
  exact this

/-- On a ready filter with at least one bit, `bloom_check` returns `1` when all
derived positions are set, and leaves the filter as it is. -/
theorem bloom_check_of_all_set (murmurhash2 : Hash) (bl : bloom) (hr : Ready bl)
    (h1 : 1 ≤ bl.bits) (buffer : List Nat) (len : Int)
    (h : all_set murmurhash2 bl buffer len) :
    bloom_check murmurhash2 bl buffer len = some (1, bl) := by
  obtain ⟨data, hbf, -⟩ := hr.buffer
  obtain ⟨r, data1, hspec, -, hsame, -, hr1, -⟩ :=
    bloom_check_add_spec murmurhash2 bl hr h1 data hbf buffer len 0
  rw [hsame rfl, ← hbf] at hspec
  rw [hr1.2 h] at hspec
  exact hspec

/-! ## Bits are never cleared -/

theorem check_add_body_mono (a b : Nat) (add : Int) (st st1 : Int × bloom) (i : Nat)
    (h : check_add_body a b add st i = some st1) (y : Nat) (hy : st.2.bf.bit y = true) :
    st1.2.bf.bit y = true := by
  unfold check_add_body at h
  by_cases hz : toUInt st.2.bits = 0
  · rw [if_pos hz] at h; cases h
  rw [if_neg hz] at h
  cases hread : st.2.bf.read (position st.2.bits a b i >>> 3) with
  | none => simp [hread] at h
  | some c =>
    simp only [hread] at h
    by_cases hs : c &&& 1 <<< (position st.2.bits a b i % 8) ≠ 0
    · rw [if_pos hs] at h
      split_ifs at h
      cases h; exact hy
    · rw [if_neg hs] at h
      by_cases ha : add ≠ 0
      · rw [if_pos ha] at h
        cases hbf : st.2.bf with
        | null => simp [hbf, Ptr.write] at h
        | dangling => simp [hbf, Ptr.write] at h
        | block data =>
          rw [hbf] at hread hy
          have hc : data[position st.2.bits a b i / 8]? = some c := by
            rw [← shr3]; exact hread
          simp only [hbf, Ptr.write, shr3] at h
          split_ifs at h with hlt
          cases h
          exact (bit_block_set data _ c hc y).2 (Or.inl hy)
      · rw [if_neg ha] at h
        cases h; exact hy

theorem foldlM_mono (a b : Nat) (add : Int) (l : List Nat) (st st1 : Int × bloom)
    (h : l.foldlM (check_add_body a b add) st = some st1) (y : Nat)
    (hy : st.2.bf.bit y = true) : st1.2.bf.bit y = true := by
  induction l generalizing st with
  | nil =>
    simp only [List.foldlM_nil] at h
    cases h
    exact hy
  | cons i l ih =>
    rw [List.foldlM_cons] at h
    cases hstep : check_add_body a b add st i with
    | none => simp [hstep] at h
    | some st2 =>
      rw [hstep] at h
      exact ih st2 h (check_add_body_mono a b add st st2 i hstep y hy)

/-- Whatever the filter, a call of `bloom_check_add` that returns clears no bit. -/
theorem bloom_check_add_mono (murmurhash2 : Hash) (bl bl1 : bloom) (buffer : List Nat)
    (len add r : Int) (h : bloom_check_add murmurhash2 bl buffer len add = some (r, bl1))
    (y : Nat) (hy : bl.bf.bit y = true) : bl1.bf.bit y = true := by
  unfold bloom_check_add at h
  split_ifs at h with hready
  · cases h; exact hy
  · simp only at h
    split at h
    · cases h
    · rename_i hits bl2 hfold
      have := foldlM_mono _ _ _ _ _ _ hfold y hy
      split_ifs at h <;> cases h <;> exact this

/-- Whatever the filter, a sequence of calls that runs to the end clears no bit. -/
theorem run_mono (murmurhash2 : Hash) (ops : List Op) (bl bl1 : bloom)
    (h : run murmurhash2 ops bl = some bl1) (y : Nat) (hy : bl.bf.bit y = true) :
    bl1.bf.bit y = true := by
  induction ops generalizing bl with
  | nil =>
    simp only [run] at h
    cases h
    exact hy
  | cons op ops ih =>
    cases op with
    | add buffer len =>
      simp only [run] at h
      cases hcall : bloom_add murmurhash2 bl buffer len with
      | none => simp [hcall] at h
      | some res =>
        obtain ⟨r, bl2⟩ := res
        simp only [hcall] at h
        exact ih bl2 h (bloom_check_add_mono murmurhash2 bl bl2 buffer len 1 r hcall y hy)
    | check buffer len =>
      simp only [run] at h
      cases hcall : bloom_check murmurhash2 bl buffer len with
      | none => simp [hcall] at h
      | some res =>
        obtain ⟨r, bl2⟩ := res
        simp only [hcall] at h
        exact ih bl2 h (bloom_check_add_mono murmurhash2 bl bl2 buffer len 0 r hcall y hy)

theorem ready_filter9 : Ready filter9 :=
  ⟨by decide, by decide, by decide, by decide, by decide, by decide, [0, 0], rfl, by decide⟩

theorem ready_added9 : Ready added9 :=
  ⟨by decide, by decide, by decide, by decide, by decide, by decide, [254, 0], rfl, by decide⟩

/-! ## The query interface: `bloom_add` and `bloom_check` -/

/-- Claim C1. No false negatives: on a ready filter with at least one bit, once
`bloom_add` has been called on an input, `bloom_check` on the same input
returns `1`, right away and after any further sequence of calls on the filter. -/
theorem no_false_negatives (murmurhash2 : Hash) (bl : bloom) (hr : Ready bl)
    (h1 : 1 ≤ bl.bits) (e : List Nat) (len : Int) (ops : List Op) :
    ∃ r bl1 bl2, bloom_add murmurhash2 bl e len = some (r, bl1) ∧
      bloom_check murmurhash2 bl1 e len = some (1, bl1) ∧
      run murmurhash2 ops bl1 = some bl2 ∧
      bloom_check murmurhash2 bl2 e len = some (1, bl2) := by
  obtain ⟨data, hbf, -⟩ := hr.buffer
  obtain ⟨r, data1, hspec, -, -, hbit, -⟩ :=
    bloom_check_add_spec murmurhash2 bl hr h1 data hbf e len 1
  obtain ⟨hr1, hb1, -⟩ := hr.check_add h1 hspec
  have hset1 : all_set murmurhash2 { bl with bf := Ptr.block data1 } e len := by
    intro i hi
    exact (hbit _).2 (Or.inr ⟨one_ne_zero, i, hi, rfl⟩)
  obtain ⟨bl2, hrun, hr2, hb2, hh2, -, -, -, -, -, hmono⟩ :=
    run_spec murmurhash2 ops _ hr1 (by rw [hb1]; exact h1)
  have hset2 : all_set murmurhash2 bl2 e len :=
    all_set_congr murmurhash2 _ bl2 e len hb2 hh2 hmono hset1
  exact ⟨r, _, bl2, hspec, bloom_check_of_all_set murmurhash2 _ hr1 (by rw [hb1]; exact h1) e len hset1,
    hrun, bloom_check_of_all_set murmurhash2 bl2 hr2 (by rw [hb2, hb1]; exact h1) e len hset2⟩

theorem no_false_negatives_witness :
    Ready filter9 ∧ 1 ≤ filter9.bits ∧
    ∃ r bl1 bl2, bloom_add hash0 filter9 [1, 2] 2 = some (r, bl1) ∧
      bloom_check hash0 bl1 [1, 2] 2 = some (1, bl1) ∧
      run hash0 [Op.add [3] 1, Op.check [1, 2] 2, Op.add [4, 5, 6] 3] bl1 = some bl2 ∧
      bloom_check hash0 bl2 [1, 2] 2 = some (1, bl2) :=
  ⟨ready_filter9, by decide,
    no_false_negatives hash0 filter9 ready_filter9 (by decide) [1, 2] 2 _⟩

/-- The property of claim C2 where the filter has at least one bit:
`bloom_check` is a pure query on a ready filter with `bits ≥ 1`; it returns `1`
exactly when all derived positions of the input are set, `0` exactly when they
are not, and the filter after the call is the filter before it. -/
theorem check_pure_query (murmurhash2 : Hash) (bl : bloom) (hr : Ready bl)
    (h1 : 1 ≤ bl.bits) (buffer : List Nat) (len : Int) :
    ∃ r, bloom_check murmurhash2 bl buffer len = some (r, bl) ∧
      (r = 1 ↔ all_set murmurhash2 bl buffer len) ∧
      (r = 0 ↔ ¬ all_set murmurhash2 bl buffer len) := by
  obtain ⟨data, hbf, -⟩ := hr.buffer
  obtain ⟨r, data1, hspec, -, hsame, -, hr1, hr0⟩ :=
    bloom_check_add_spec murmurhash2 bl hr h1 data hbf buffer len 0
  rw [hsame rfl, ← hbf] at hspec
  exact ⟨r, hspec, hr1, hr0⟩

theorem check_pure_query_witness :
    Ready filter9 ∧ 1 ≤ filter9.bits ∧
    ∃ r, bloom_check hash0 filter9 [1, 2] 2 = some (r, filter9) ∧
      (r = 1 ↔ all_set hash0 filter9 [1, 2] 2) ∧
      (r = 0 ↔ ¬ all_set hash0 filter9 [1, 2] 2) :=
  ⟨ready_filter9, by decide, check_pure_query hash0 filter9 ready_filter9 (by decide) [1, 2] 2⟩

/-- The property of claim C3 where the filter has at least one bit: on a ready
filter with `bits ≥ 1`, `bloom_add` returns what `bloom_check` returns on the
filter before the call: `1` exactly when every derived position was already
set, `0` exactly when some derived position was clear, which is exactly when
the call sets a bit that was clear.  The hash function is arbitrary, so derived
positions may coincide. -/
theorem add_reports_prior_state (murmurhash2 : Hash) (bl : bloom) (hr : Ready bl)
    (h1 : 1 ≤ bl.bits) (buffer : List Nat) (len : Int) :
    ∃ r bl1, bloom_add murmurhash2 bl buffer len = some (r, bl1) ∧
      bloom_check murmurhash2 bl buffer len = some (r, bl) ∧
      (r = 1 ↔ all_set murmurhash2 bl buffer len) ∧
      (r = 0 ↔ ∃ i, i < toUInt bl.hashes ∧
        bl.bf.bit (derived murmurhash2 bl buffer len i) = false) ∧
      (r = 0 ↔ ∃ y, bl.bf.bit y = false ∧ bl1.bf.bit y = true) := by
  obtain ⟨data, hbf, -⟩ := hr.buffer
  obtain ⟨r, data1, hspec, -, -, hbit, hr1, hr0⟩ :=
    bloom_check_add_spec murmurhash2 bl hr h1 data hbf buffer len 1
  obtain ⟨r2, data2, hspec2, -, hsame2, -, hq1, hq0⟩ :=
    bloom_check_add_spec murmurhash2 bl hr h1 data hbf buffer len 0
  rw [hsame2 rfl, ← hbf] at hspec2
  have hr01 : r = 0 ∨ r = 1 := by
    by_cases h : all_set murmurhash2 bl buffer len
    · exact Or.inr (hr1.2 h)
    · exact Or.inl (hr0.2 h)
  have hrr : r2 = r := by
    rcases hr01 with h | h
    · rw [h]; exact hq0.2 (hr0.1 h)
    · rw [h]; exact hq1.2 (hr1.1 h)
  rw [hrr] at hspec2
  have hsome : r = 0 ↔ ∃ i, i < toUInt bl.hashes ∧
      bl.bf.bit (derived murmurhash2 bl buffer len i) = false := by
    rw [hr0]
    unfold all_set
    constructor
    · intro h
      by_contra hcon
      apply h
      intro i hi
      by_contra hb
      exact hcon ⟨i, hi, by simpa using hb⟩
    · rintro ⟨i, hi, hb⟩ h
      rw [h i hi] at hb
      cases hb
  refine ⟨r, _, hspec, hspec2, hr1, hsome, ?_⟩
  rw [hsome]
  constructor
  · rintro ⟨i, hi, hb⟩
    exact ⟨_, hb, (hbit _).2 (Or.inr ⟨one_ne_zero, i, hi, rfl⟩)⟩
  · rintro ⟨y, hy0, hy1⟩
    rw [hbf] at hy0
    rcases (hbit y).1 hy1 with h | ⟨-, i, hi, hpos⟩
    · rw [h] at hy0; cases hy0
    · exact ⟨i, hi, by rw [hpos, hbf]; exact hy0⟩

theorem add_reports_prior_state_witness :
    Ready filter9 ∧ 1 ≤ filter9.bits ∧
    ∃ r bl1, bloom_add (fun _ _ _ => 3) filter9 [1, 2] 2 = some (r, bl1) ∧
      bloom_check (fun _ _ _ => 3) filter9 [1, 2] 2 = some (r, filter9) ∧
      (r = 1 ↔ all_set (fun _ _ _ => 3) filter9 [1, 2] 2) ∧
      (r = 0 ↔ ∃ i, i < toUInt filter9.hashes ∧
        filter9.bf.bit (derived (fun _ _ _ => 3) filter9 [1, 2] 2 i) = false) ∧
      (r = 0 ↔ ∃ y, filter9.bf.bit y = false ∧ bl1.bf.bit y = true) :=
  ⟨ready_filter9, by decide,
    add_reports_prior_state (fun _ _ _ => 3) filter9 ready_filter9 (by decide) [1, 2] 2⟩

/-- Claim C4. Monotonicity: whatever the filter, a sequence of `bloom_add` and
`bloom_check` calls that runs to its end leaves every bit set that was set
before it; and on a ready filter with at least one bit every such sequence
does run to its end. -/
theorem bits_never_cleared (murmurhash2 : Hash) (bl : bloom) (ops : List Op) :
    (∀ bl1, run murmurhash2 ops bl = some bl1 →
      ∀ y, bl.bf.bit y = true → bl1.bf.bit y = true) ∧
    (Ready bl → 1 ≤ bl.bits → ∃ bl1, run murmurhash2 ops bl = some bl1) := by
  constructor
  · intro bl1 h y hy
    exact run_mono murmurhash2 ops bl bl1 h y hy
  · intro hr h1
    obtain ⟨bl1, h, -⟩ := run_spec murmurhash2 ops bl hr h1
    exact ⟨bl1, h⟩

theorem bits_never_cleared_witness :
    Ready added9 ∧ 1 ≤ added9.bits ∧
    (∀ y, added9.bf.bit y = true ↔ (1 ≤ y ∧ y ≤ 7)) ∧
    (∃ bl1, run hash0 [Op.add [3] 1, Op.check [1, 2] 2, Op.add [4, 5, 6] 3] added9 = some bl1) ∧
    run hash0 [Op.add [3] 1, Op.check [1, 2] 2, Op.add [4, 5, 6] 3] added9
      = some { added9 with bf := Ptr.block [254, 1] } ∧
    ∀ y, added9.bf.bit y = true → (Ptr.block [254, 1]).bit y = true := by
  have hrun : run hash0 [Op.add [3] 1, Op.check [1, 2] 2, Op.add [4, 5, 6] 3] added9
      = some { added9 with bf := Ptr.block [254, 1] } := rfl
  refine ⟨ready_added9, by decide, ?_,
    (bits_never_cleared hash0 added9 _).2 ready_added9 (by decide), hrun, ?_⟩
  · intro y
    constructor
    · intro hy
      by_contra hn
      have h0 : y = 0 ∨ 8 ≤ y := by omega
      rcases h0 with h0 | h0
      · subst h0
        revert hy
        decide
      · have h8 : y / 8 = 1 ∨ 2 ≤ y / 8 := by omega
        have hb := (bit_block [254, 0] y).1 hy
        obtain ⟨c, hc, ht⟩ := hb
        rcases h8 with h8 | h8
        · rw [h8] at hc
          simp at hc
          subst hc
          simp at ht
        · rw [List.getElem?_eq_none (by simpa using h8)] at hc
          cases hc
    · rintro ⟨h1, h7⟩
      interval_cases y <;> decide
  · exact (bits_never_cleared hash0 added9 _).1 _ hrun

/-- Claim C5. Not-ready guard: on a filter whose `ready` flag is `0`,
`bloom_check` and `bloom_add` return `-1` and leave the filter as it is; the
same holds with any pointer in place of the block, also `NULL` or a released
block, so the block is not accessed. -/
theorem not_ready_guard (murmurhash2 : Hash) (bl : bloom) (h0 : bl.ready = 0)
    (buffer : List Nat) (len : Int) :
    bloom_check murmurhash2 bl buffer len = some (-1, bl) ∧
    bloom_add murmurhash2 bl buffer len = some (-1, bl) ∧
    ∀ p : Ptr,
      bloom_check murmurhash2 { bl with bf := p } buffer len = some (-1, { bl with bf := p }) ∧
      bloom_add murmurhash2 { bl with bf := p } buffer len = some (-1, { bl with bf := p }) := by
  have key : ∀ (b : bloom) (add : Int), b.ready = 0 →
      bloom_check_add murmurhash2 b buffer len add = some (-1, b) := by
    intro b add hb
    unfold bloom_check_add
    rw [if_pos hb]
  exact ⟨key bl 0 h0, key bl 1 h0, fun p => ⟨key _ 0 h0, key _ 1 h0⟩⟩

theorem not_ready_guard_witness :
    released9.ready = 0 ∧
    bloom_check hash0 released9 [1, 2] 2 = some (-1, released9) ∧
    bloom_add hash0 released9 [1, 2] 2 = some (-1, released9) ∧
    ∀ p : Ptr,
      bloom_check hash0 { released9 with bf := p } [1, 2] 2
        = some (-1, { released9 with bf := p }) ∧
      bloom_add hash0 { released9 with bf := p } [1, 2] 2
        = some (-1, { released9 with bf := p }) :=
  ⟨rfl, not_ready_guard hash0 released9 rfl [1, 2] 2⟩

/-! ## Construction: `bloom_init` and `bloom_init_fill` -/

theorem ceil_eq_neg_floor_neg (q : ℚ) : ⌈q⌉ = -⌊-q⌋ := by
  rw [Int.floor_neg, neg_neg]

theorem Double.toInt_range (x : Double) (t : Int) (h : x.toInt = some t) :
    INT_MIN ≤ t ∧ t ≤ INT_MAX := by
  cases x with
  | fin q =>
    simp only [Double.toInt] at h
    split_ifs at h with h0 hr hr <;> cases h <;> exact hr
  | pinf => cases h
  | ninf => cases h
  | nan => cases h

/-- When `bloom_init` returns `0`: the arguments pass the guard, the two
conversions to `int` are defined, `calloc` returned a block, and the filter
holds the computed sizing and a zeroed block of `bytes` bytes. -/
theorem bloom_init_some_zero (fe : FloatEnv) (calloc_ok : Bool) (bl b : bloom) (entries : Int)
    (error : Double) :
    bloom_init fe calloc_ok bl entries error = some (0, b) ↔
      1 ≤ entries ∧ error.eq (Double.fin 0) = false ∧ calloc_ok = true ∧
      ∃ bits hashes, sizing_bits fe entries error = some bits ∧
        sizing_hashes fe error = some hashes ∧
        b = { entries := entries, error := error, bits := bits, bytes := sizing_bytes bits,
              hashes := hashes, bpe := sizing_bpe fe error,
              bf := Ptr.block (List.replicate (toSizeT (sizing_bytes bits)) 0), ready := 1 } := by
  unfold bloom_init sizing_bits sizing_hashes sizing_bpe sizing_bytes
  simp only
  by_cases hrej : entries < 1 ∨ error.eq (Double.fin 0) = true
  · rw [if_pos hrej]
    constructor
    · intro h; simp at h
    · rintro ⟨h1, h2, -⟩
      rcases hrej with h | h
      · omega
      · rw [h2] at h; cases h
  · rw [if_neg hrej]
    have h1 : 1 ≤ entries := by
      by_contra hlt; exact hrej (Or.inl (by omega))
    have h2 : error.eq (Double.fin 0) = false := by
      cases hb : error.eq (Double.fin 0)
      · rfl
      · exact absurd (Or.inr hb) hrej
    split
    · rename_i hbits
      simp [hbits]
    · rename_i bits hbits
      split
      · rename_i hhashes
        simp [hbits, hhashes]
      · rename_i hashes hhashes
        simp only [hbits, hhashes, h1, h2, true_and]
        cases calloc_ok with
        | false => simp [alloc]
        | true =>
          simp only [alloc, if_true]
          rw [if_neg (fun h => Ptr.noConfusion h)]
          constructor
          · intro h
            simp only [Option.some.injEq, Prod.mk.injEq, true_and] at h
            exact ⟨trivial, bits, hashes, rfl, rfl, h.symm⟩
          · rintro ⟨-, b1, hs1, e1, e2, rfl⟩
            cases e1; cases e2; rfl

theorem init_tiny : bloom_init fe0 true blank 1 (Double.fin (9 / 10)) = some (0, tiny) := by
  norm_num [bloom_init, fe0, blank, tiny, Double.eq, Double.log, Double.div, Double.neg,
    Double.mul, Double.ofInt, Double.ceil, Double.toInt, INT_MIN, INT_MAX, alloc, toSizeT,
    ceil_eq_neg_floor_neg]
  simp

theorem init_filter9 :
    bloom_init fe0 true blank 1 (Double.fin (1 / 100)) = some (0, filter9) := by
  have h8 : Int.tmod 9 8 = 1 := rfl
  have h9 : Int.tdiv 9 8 = 1 := rfl
  norm_num [bloom_init, fe0, blank, filter9, Double.eq, Double.log, Double.div, Double.neg,
    Double.mul, Double.ofInt, Double.ceil, Double.toInt, INT_MIN, INT_MAX, alloc, toSizeT,
    ceil_eq_neg_floor_neg, h8, h9]
  simp [List.replicate]

theorem ready_tiny : Ready tiny :=
  ⟨by decide, by decide, by decide, by decide, by decide, by decide, [], rfl, by decide⟩

/-- Claim C2, at the input where the code fails it: `bloom_init` with one entry
and error rate `0.9` returns `0` and leaves a ready filter of zero bits and one
hash position, on which `bloom_check` divides by zero and returns nothing. -/
theorem check_zero_bits_undefined :
    bloom_init fe0 true blank 1 (Double.fin (9 / 10)) = some (0, tiny) ∧ Ready tiny ∧
      bloom_check hash0 tiny [1, 2] 2 = none :=
  ⟨init_tiny, ready_tiny, rfl⟩

/-- Claim C3, at the input where the code fails it: on the ready filter of zero
bits that `bloom_init` builds for one entry and error rate `0.9`, `bloom_add`
divides by zero and returns nothing. -/
theorem add_zero_bits_undefined :
    bloom_init fe0 true blank 1 (Double.fin (9 / 10)) = some (0, tiny) ∧ Ready tiny ∧
      bloom_add hash0 tiny [1, 2] 2 = none :=
  ⟨init_tiny, ready_tiny, rfl⟩

/-- Claim C6. Rejection: with `entries < 1` (whatever the error rate) or with
error rate `0`, `bloom_init` returns `1` and leaves the filter not ready, its
other fields as they were; whatever the floating-point environment, the
outcome of `calloc` and the previous contents of the record. -/
theorem init_rejects (fe : FloatEnv) (calloc_ok : Bool) (bl : bloom) (entries : Int)
    (error : Double) (h : entries < 1 ∨ error = Double.fin 0) :
    bloom_init fe calloc_ok bl entries error = some (1, { bl with ready := 0 }) ∧
      ∀ r b, bloom_init fe calloc_ok bl entries error = some (r, b) → r ≠ 0 ∧ b.ready = 0 := by
  have hres : bloom_init fe calloc_ok bl entries error = some (1, { bl with ready := 0 }) := by
    unfold bloom_init
    simp only
    rw [if_pos]
    rcases h with h | h
    · exact Or.inl h
    · right; rw [h]; simp [Double.eq]
  refine ⟨hres, ?_⟩
  intro r b hb
  rw [hres] at hb
  cases hb
  exact ⟨one_ne_zero, rfl⟩

theorem init_rejects_witness :
    ((0 : Int) < 1 ∨ Double.fin (1 / 100) = Double.fin 0) ∧
    (bloom_init fe0 true filter9 0 (Double.fin (1 / 100))
        = some (1, { filter9 with ready := 0 }) ∧
      ∀ r b, bloom_init fe0 true filter9 0 (Double.fin (1 / 100)) = some (r, b) →
        r ≠ 0 ∧ b.ready = 0) ∧
    (bloom_init fe0 true blank 100 (Double.fin 0) = some (1, { blank with ready := 0 }) ∧
      ∀ r b, bloom_init fe0 true blank 100 (Double.fin 0) = some (r, b) →
        r ≠ 0 ∧ b.ready = 0) :=
  ⟨Or.inl (by decide), init_rejects fe0 true filter9 0 (Double.fin (1 / 100)) (Or.inl (by decide)),
    init_rejects fe0 true blank 100 (Double.fin 0) (Or.inr rfl)⟩

theorem sizing_bytes_le (bits : Int) (h : bits ≤ INT_MAX) : sizing_bytes bits ≤ 268435456 := by
  unfold INT_MAX at h
  unfold sizing_bytes
  by_cases h0 : 0 ≤ bits
  · rw [Int.tmod_eq_emod h0 (by norm_num), Int.tdiv_eq_ediv h0 (by norm_num)]
    split_ifs <;> omega
  · have hneg : bits.tdiv 8 ≤ 0 := by
      have h1 : (-(-bits)).tdiv 8 = -((-bits).tdiv 8) := Int.neg_tdiv (-bits) 8
      rw [neg_neg] at h1
      have h2 : 0 ≤ (-bits).tdiv 8 := Int.tdiv_nonneg (by omega) (by norm_num)
      omega
    split_ifs <;> omega

theorem toSizeT_natCast (n : Nat) (h : (n : Int) ≤ 268435456) : toSizeT (n : Int) = n := by
  unfold toSizeT
  omega

/-- With `len` the length of `data`: `bloom_init_fill` returns `0` exactly when
`bloom_init` returns `0` and `len` equals the computed `bytes`; the filter is
then the one `bloom_init` builds, with `data` as its block. -/
theorem bloom_init_fill_some_zero (fe : FloatEnv) (calloc_ok : Bool) (bl g : bloom)
    (entries : Int) (error : Double) (data : List Nat) :
    bloom_init_fill fe calloc_ok bl entries error data data.length = some (0, g) ↔
      ∃ b, bloom_init fe calloc_ok bl entries error = some (0, b) ∧
        b.bytes = data.length ∧ g = { b with bf := Ptr.block data } := by
  unfold bloom_init_fill
  cases hinit : bloom_init fe calloc_ok bl entries error with
  | none => simp
  | some res =>
    obtain ⟨r, b⟩ := res
    simp only
    by_cases hcond : r ≠ 0 ∨ b.bytes ≠ (data.length : Int)
    · rw [if_pos hcond]
      constructor
      · intro h; simp at h
      · rintro ⟨b1, hb1, hlen, -⟩
        cases hb1
        rcases hcond with h | h
        · exact absurd rfl h
        · exact absurd hlen h
    · rw [if_neg hcond]
      have hr : r = 0 := by
        by_contra h; exact hcond (Or.inl h)
      have hlen : b.bytes = (data.length : Int) := by
        by_contra h; exact hcond (Or.inr h)
      subst hr
      obtain ⟨-, -, -, bits, hashes, hbits, -, hb⟩ :=
        (bloom_init_some_zero fe calloc_ok bl b entries error).1 hinit
      have hrange := Double.toInt_range _ _ hbits
      have hsmall : (data.length : Int) ≤ 268435456 := by
        rw [← hlen, hb]
        exact sizing_bytes_le bits hrange.2
      have hbf : b.bf = Ptr.block (List.replicate data.length 0) := by
        have hbytes : sizing_bytes bits = (data.length : Int) := by
          rw [← hlen, hb]
        rw [hb]
        simp only
        rw [hbytes, toSizeT_natCast _ hsmall]
      have hcopy : memcpy b.bf data (toSizeT (data.length : Int)) = some (Ptr.block data) := by
        rw [hbf, toSizeT_natCast _ hsmall]
        simp [memcpy]
      rw [hcopy]
      constructor
      · intro h
        simp only [Option.some.injEq, Prod.mk.injEq, true_and] at h
        exact ⟨b, rfl, hlen, h.symm⟩
      · rintro ⟨b1, hb1, -, hg⟩
        cases hb1
        rw [hg]

/-- Claim C7. With `data_len` the length of `data`: `bloom_init_fill` returns `0`
exactly when `bloom_init` returns `0` and `data_len` equals the computed
`bytes`, and the filter is then the one `bloom_init` builds with `data` as its
block; when `bloom_init` returns `0` and the length passed differs from
`bytes`, `bloom_init_fill` returns `1` and the block is as `calloc` left it, all
zero; when `bloom_init` returns non-zero, so does `bloom_init_fill`. -/
theorem init_fill_length_check (fe : FloatEnv) (calloc_ok : Bool) (bl : bloom) (entries : Int)
    (error : Double) (data : List Nat) :
    (∀ g, bloom_init_fill fe calloc_ok bl entries error data data.length = some (0, g) ↔
      ∃ b, bloom_init fe calloc_ok bl entries error = some (0, b) ∧
        b.bytes = data.length ∧ g = { b with bf := Ptr.block data }) ∧
    (∀ b (len : Int), bloom_init fe calloc_ok bl entries error = some (0, b) → b.bytes ≠ len →
      bloom_init_fill fe calloc_ok bl entries error data len = some (1, b) ∧
        b.bf = Ptr.block (List.replicate (toSizeT b.bytes) 0)) ∧
    (∀ r b (len : Int), bloom_init fe calloc_ok bl entries error = some (r, b) → r ≠ 0 →
      bloom_init_fill fe calloc_ok bl entries error data len = some (1, b)) := by
  refine ⟨fun g => bloom_init_fill_some_zero fe calloc_ok bl g entries error data, ?_, ?_⟩
  · intro b len hinit hne
    obtain ⟨-, -, -, bits, hashes, -, -, hb⟩ :=
      (bloom_init_some_zero fe calloc_ok bl b entries error).1 hinit
    refine ⟨?_, by rw [hb]⟩
    unfold bloom_init_fill
    rw [hinit]
    simp only
    rw [if_pos (Or.inr hne)]
  · intro r b len hinit hne
    unfold bloom_init_fill
    rw [hinit]
    simp only
    rw [if_pos (Or.inl hne)]

theorem init_fill_length_check_witness :
    bloom_init fe0 true blank 1 (Double.fin (1 / 100)) = some (0, filter9) ∧
    filter9.bytes = (([254, 3] : List Nat).length : Int) ∧
    bloom_init_fill fe0 true blank 1 (Double.fin (1 / 100)) [254, 3] 2
      = some (0, { filter9 with bf := Ptr.block [254, 3] }) ∧
    filter9.bytes ≠ 1 ∧
    bloom_init_fill fe0 true blank 1 (Double.fin (1 / 100)) [254, 3] 1 = some (1, filter9) ∧
    filter9.bf = Ptr.block (List.replicate (toSizeT filter9.bytes) 0) :=
  ⟨init_filter9, rfl,
    ((init_fill_length_check fe0 true blank 1 (Double.fin (1 / 100)) [254, 3]).1 _).2
      ⟨filter9, init_filter9, rfl, rfl⟩,
    by decide,
    ((init_fill_length_check fe0 true blank 1 (Double.fin (1 / 100)) [254, 3]).2.1
      filter9 1 init_filter9 (by decide)).1,
    ((init_fill_length_check fe0 true blank 1 (Double.fin (1 / 100)) [254, 3]).2.1
      filter9 1 init_filter9 (by decide)).2⟩

/-! ## The fields and the length of the block are never changed -/

theorem same_shape_refl (s : bloom) : same_shape s s :=
  ⟨rfl, fun data h => ⟨data, h, rfl⟩⟩

theorem same_shape_trans {s t u : bloom} (h1 : same_shape s t) (h2 : same_shape t u) :
    same_shape s u := by
  obtain ⟨e1, b1⟩ := h1
  obtain ⟨e2, b2⟩ := h2
  constructor
  · rw [e2, e1]
  · intro data hd
    obtain ⟨d1, hd1, hl1⟩ := b1 data hd
    obtain ⟨d2, hd2, hl2⟩ := b2 d1 hd1
    exact ⟨d2, hd2, hl2.trans hl1⟩

theorem foldlM_preserves {σ α : Type} (f : σ → α → Option σ) (R : σ → σ → Prop)
    (hrefl : ∀ s, R s s) (htrans : ∀ s t u, R s t → R t u → R s u)
    (hstep : ∀ s i t, f s i = some t → R s t) (l : List α) (s t : σ)
    (h : l.foldlM f s = some t) : R s t := by
  induction l generalizing s with
  | nil =>
    simp only [List.foldlM_nil] at h
    cases h
    exact hrefl _
  | cons i l ih =>
    rw [List.foldlM_cons] at h
    cases hs : f s i with
    | none => simp [hs] at h
    | some u =>
      rw [hs] at h
      exact htrans s u t (hstep s i u hs) (ih u h)

theorem check_add_body_same_shape (a b : Nat) (add : Int) (st st1 : Int × bloom) (i : Nat)
    (h : check_add_body a b add st i = some st1) : same_shape st.2 st1.2 := by
  unfold check_add_body at h
  by_cases hz : toUInt st.2.bits = 0
  · rw [if_pos hz] at h; cases h
  rw [if_neg hz] at h
  cases hread : st.2.bf.read (position st.2.bits a b i >>> 3) with
  | none => simp [hread] at h
  | some c =>
    simp only [hread] at h
    by_cases hs : c &&& 1 <<< (position st.2.bits a b i % 8) ≠ 0
    · rw [if_pos hs] at h
      split_ifs at h
      cases h; exact same_shape_refl _
    · rw [if_neg hs] at h
      by_cases ha : add ≠ 0
      · rw [if_pos ha] at h
        cases hbf : st.2.bf with
        | null => simp [hbf, Ptr.write] at h
        | dangling => simp [hbf, Ptr.write] at h
        | block data =>
          simp only [hbf, Ptr.write] at h
          split_ifs at h with hlt
          cases h
          refine ⟨rfl, ?_⟩
          intro d hd
          rw [hbf] at hd
          cases hd
          exact ⟨_, rfl, by rw [List.length_set]⟩
      · rw [if_neg ha] at h
        cases h; exact same_shape_refl _

/-- Whatever the filter, a call of `bloom_check_add` that returns changes no
field but the block, and keeps the length of the block. -/
theorem bloom_check_add_same_shape (murmurhash2 : Hash) (bl bl1 : bloom) (buffer : List Nat)
    (len add r : Int) (h : bloom_check_add murmurhash2 bl buffer len add = some (r, bl1)) :
    same_shape bl bl1 := by
  unfold bloom_check_add at h
  split_ifs at h with hready
  · cases h; exact same_shape_refl _
  · simp only at h
    split at h
    · cases h
    · rename_i hits bl2 hfold
      have := foldlM_preserves _ (fun s t : Int × bloom => same_shape s.2 t.2)
        (fun s => same_shape_refl s.2) (fun _ _ _ => same_shape_trans)
        (fun s i t => check_add_body_same_shape _ _ _ s t i) _ _ _ hfold
      split_ifs at h <;> cases h <;> exact this

theorem run_same_shape (murmurhash2 : Hash) (ops : List Op) (bl bl1 : bloom)
    (h : run murmurhash2 ops bl = some bl1) : same_shape bl bl1 := by
  induction ops generalizing bl with
  | nil =>
    simp only [run] at h
    cases h
    exact same_shape_refl _
  | cons op ops ih =>
    cases op with
    | add buffer len =>
      simp only [run] at h
      cases hcall : bloom_add murmurhash2 bl buffer len with
      | none => simp [hcall] at h
      | some res =>
        obtain ⟨r, bl2⟩ := res
        simp only [hcall] at h
        exact same_shape_trans (bloom_check_add_same_shape murmurhash2 bl bl2 buffer len 1 r hcall)
          (ih bl2 h)
    | check buffer len =>
      simp only [run] at h
      cases hcall : bloom_check murmurhash2 bl buffer len with
      | none => simp [hcall] at h
      | some res =>
        obtain ⟨r, bl2⟩ := res
        simp only [hcall] at h
        exact same_shape_trans (bloom_check_add_same_shape murmurhash2 bl bl2 buffer len 0 r hcall)
          (ih bl2 h)

/-- Claim C8. Round trip: let `f` be a filter that `bloom_init` has built for
`(entries, error)` and that a sequence of calls has brought to some state.  Then
`f` has a block, and `bloom_init_fill` with the same `(entries, error)`, the
bytes of that block and `f.bytes` as their length returns `0` (given that
`calloc` returns a block) and yields a filter with the same bits, bytes, hashes
and block as `f` - the filter `f` itself -, so `bloom_check` answers alike on both. -/
theorem round_trip (fe : FloatEnv) (murmurhash2 : Hash) (calloc_ok : Bool) (bl0 bl1 f0 f : bloom)
    (entries : Int) (error : Double) (ops : List Op)
    (hinit : bloom_init fe calloc_ok bl0 entries error = some (0, f0))
    (hrun : run murmurhash2 ops f0 = some f) :
    ∃ data g, f.bf = Ptr.block data ∧
      bloom_init_fill fe true bl1 entries error data f.bytes = some (0, g) ∧
      g.bits = f.bits ∧ g.bytes = f.bytes ∧ g.hashes = f.hashes ∧ g.bf = f.bf ∧ g = f ∧
      ∀ e len, bloom_check murmurhash2 g e len = bloom_check murmurhash2 f e len := by
  obtain ⟨h1, h2, -, bits, hashes, hbits, hhashes, hf0⟩ :=
    (bloom_init_some_zero fe calloc_ok bl0 f0 entries error).1 hinit
  obtain ⟨hfields, hblock⟩ := run_same_shape murmurhash2 ops f0 f hrun
  obtain ⟨data, hdata, hlen⟩ := hblock (List.replicate (toSizeT (sizing_bytes bits)) 0)
    (by rw [hf0])
  rw [List.length_replicate] at hlen
  have hinit1 : bloom_init fe true bl1 entries error = some (0, f0) := by
    rw [bloom_init_some_zero]
    exact ⟨h1, h2, rfl, bits, hashes, hbits, hhashes, hf0⟩
  have hbytes : f.bytes = sizing_bytes bits := by
    rw [hfields, hf0]
  have hfill : bloom_init_fill fe true bl1 entries error data f.bytes = some (0, f) := by
    unfold bloom_init_fill
    rw [hinit1]
    simp only
    rw [if_neg (by rw [hbytes, hf0]; simp)]
    have hcopy : memcpy f0.bf data (toSizeT f.bytes) = some (Ptr.block data) := by
      rw [hf0, hbytes]
      simp [memcpy, hlen]
    rw [hcopy]
    simp only
    rw [hfields, hdata]
  exact ⟨data, f, hdata, hfill, rfl, rfl, rfl, rfl, rfl, fun _ _ => rfl⟩

theorem round_trip_witness :
    bloom_init fe0 true blank 1 (Double.fin (1 / 100)) = some (0, filter9) ∧
    run hash0 [Op.add [1, 2] 2] filter9 = some { filter9 with bf := Ptr.block [254, 0] } ∧
    ∃ data g, ({ filter9 with bf := Ptr.block [254, 0] } : bloom).bf = Ptr.block data ∧
      bloom_init_fill fe0 true released9 1 (Double.fin (1 / 100)) data
        ({ filter9 with bf := Ptr.block [254, 0] } : bloom).bytes = some (0, g) ∧
      g.bits = ({ filter9 with bf := Ptr.block [254, 0] } : bloom).bits ∧
      g.bytes = ({ filter9 with bf := Ptr.block [254, 0] } : bloom).bytes ∧
      g.hashes = ({ filter9 with bf := Ptr.block [254, 0] } : bloom).hashes ∧
      g.bf = ({ filter9 with bf := Ptr.block [254, 0] } : bloom).bf ∧
      g = { filter9 with bf := Ptr.block [254, 0] } ∧
      ∀ e len, bloom_check hash0 g e len
        = bloom_check hash0 { filter9 with bf := Ptr.block [254, 0] } e len :=
  ⟨init_filter9, rfl,
    round_trip fe0 hash0 true blank released9 filter9 _ 1 (Double.fin (1 / 100))
      [Op.add [1, 2] 2] init_filter9 rfl⟩

/-- A filter with at least one bit that `bloom_init` has built is ready in the
sense of `Ready`, in every floating-point environment whose rounding keeps the
sign of the exact result. -/
theorem bloom_init_ready (fe : FloatEnv)
    (hsign : ∀ x : ℚ, (0 ≤ x → 0 ≤ fe.rnd x) ∧ (x ≤ 0 → fe.rnd x ≤ 0))
    (calloc_ok : Bool) (bl b : bloom) (entries : Int) (error : Double)
    (hinit : bloom_init fe calloc_ok bl entries error = some (0, b)) (h1 : 1 ≤ b.bits) :
    Ready b := by
  obtain ⟨he, -, -, bits, hashes, hbits, hhashes, hb⟩ :=
    (bloom_init_some_zero fe calloc_ok bl b entries error).1 hinit
  have hbr := Double.toInt_range _ _ hbits
  have hhr := Double.toInt_range _ _ hhashes
  have hbits1 : 1 ≤ bits := by rw [hb] at h1; exact h1
  have hh0 : 0 ≤ hashes := by
    unfold sizing_bits at hbits
    unfold sizing_hashes at hhashes
    cases hq : sizing_bpe fe error with
    | fin q =>
      rw [hq] at hbits hhashes
      simp only [Double.ofInt, Double.mul, Double.toInt] at hbits
      have hqpos : 0 < q := by
        by_contra hneg
        have hle : ((entries : ℚ)) * q ≤ 0 :=
          mul_nonpos_of_nonneg_of_nonpos (by exact_mod_cast (by omega : (0 : Int) ≤ entries))
            (not_lt.1 hneg)
        have hr := (hsign _).2 hle
        split_ifs at hbits with h0 hrange hrange
        · cases hbits
          have : fe.rnd ((entries : ℚ) * q) = 0 := le_antisymm hr h0
          rw [this] at hbits1
          simp at hbits1
        · cases hbits
          have : ⌈fe.rnd ((entries : ℚ) * q)⌉ ≤ 0 := by
            rw [Int.ceil_le]; exact_mod_cast hr
          omega
      simp only [Double.mul, Double.ceil, Double.toInt] at hhashes
      have hc := (hsign (693147180559945 / 1000000000000000)).1 (by norm_num)
      have hprod := (hsign (fe.rnd (693147180559945 / 1000000000000000) * q)).1
        (mul_nonneg hc hqpos.le)
      have hceil : 0 ≤ ⌈fe.rnd (fe.rnd (693147180559945 / 1000000000000000) * q)⌉ :=
        Int.ceil_nonneg hprod
      have hcast : (0 : ℚ) ≤ ((⌈fe.rnd (fe.rnd (693147180559945 / 1000000000000000) * q)⌉ : Int) : ℚ) := by
        exact_mod_cast hceil
      rw [if_pos hcast] at hhashes
      split_ifs at hhashes
      cases hhashes
      rw [Int.floor_intCast]
      exact hceil
    | pinf =>
      rw [hq] at hbits
      simp [Double.ofInt, Double.mul, Double.ofSign, Double.sign, Double.toInt] at hbits
      split_ifs at hbits
    | ninf =>
      rw [hq] at hbits
      simp [Double.ofInt, Double.mul, Double.ofSign, Double.sign, Double.toInt] at hbits
      split_ifs at hbits
    | nan =>
      rw [hq] at hbits
      simp [Double.ofInt, Double.mul, Double.toInt] at hbits
  rw [hb]
  exact ⟨by simp, by simp; omega, hbr.2, hh0, hhr.2, rfl, _, rfl, by simp⟩

/-- A filter with at least one bit that `bloom_init_fill` has built from an
array and its length is ready in the sense of `Ready`, under the same condition
on the rounding. -/
theorem bloom_init_fill_ready (fe : FloatEnv)
    (hsign : ∀ x : ℚ, (0 ≤ x → 0 ≤ fe.rnd x) ∧ (x ≤ 0 → fe.rnd x ≤ 0))
    (calloc_ok : Bool) (bl g : bloom) (entries : Int) (error : Double) (data : List Nat)
    (hfill : bloom_init_fill fe calloc_ok bl entries error data data.length = some (0, g))
    (h1 : 1 ≤ g.bits) : Ready g := by
  obtain ⟨b, hinit, hlen, hg⟩ :=
    (bloom_init_fill_some_zero fe calloc_ok bl g entries error data).1 hfill
  have hb : Ready b := bloom_init_ready fe hsign calloc_ok bl b entries error hinit
    (by rw [hg] at h1; exact h1)
  obtain ⟨d, hd, hdl⟩ := hb.buffer
  have hsmall : (data.length : Int) ≤ 268435456 := by
    rw [← hlen, hb.bytes_eq]
    exact sizing_bytes_le b.bits hb.bits_le
  have hsize : data.length = toSizeT b.bytes := by
    rw [hlen, toSizeT_natCast _ hsmall]
  rw [hg]
  exact ⟨hb.ready, hb.bits_nonneg, hb.bits_le, hb.hashes_nonneg, hb.hashes_le, hb.bytes_eq,
    data, rfl, hsize⟩

/-! ## Sizing -/

theorem bloom_init_sized (fe : FloatEnv) (calloc_ok : Bool) (bl : bloom) (entries : Int)
    (error : Double) (bits hashes : Int) (h1 : 1 ≤ entries)
    (h2 : error.eq (Double.fin 0) = false)
    (hb : sizing_bits fe entries error = some bits)
    (hh : sizing_hashes fe error = some hashes) :
    bloom_init fe calloc_ok bl entries error =
      some (if calloc_ok = true then 0 else 1,
        { entries := entries, error := error, bits := bits, bytes := sizing_bytes bits,
          hashes := hashes, bpe := sizing_bpe fe error,
          bf := alloc calloc_ok (toSizeT (sizing_bytes bits)),
          ready := if calloc_ok = true then 1 else 0 }) := by
  unfold sizing_bits sizing_hashes sizing_bpe at *
  unfold bloom_init sizing_bytes
  simp only
  rw [if_neg (by simp [h2]; omega)]
  simp only [hb, hh]
  cases calloc_ok <;> simp [alloc]

theorem rnd_near (fe : FloatEnv)
    (hrnd : ∀ x : ℚ, 1 / 1024 ≤ |x| → |x| ≤ 1048576 →
      |fe.rnd x - x| ≤ |x| / 4503599627370496)
    (x M : ℚ) (hlo : 1 / 1024 ≤ |x|) (hM : |x| ≤ M) (hM2 : M ≤ 1048576) :
    x - M / 4503599627370496 ≤ fe.rnd x ∧ fe.rnd x ≤ x + M / 4503599627370496 := by
  have h := abs_le.1 (hrnd x hlo (hM.trans hM2))
  have hdiv : |x| / 4503599627370496 ≤ M / 4503599627370496 :=
    div_le_div_of_nonneg_right hM (by norm_num)
  constructor <;> linarith [h.1, h.2]

theorem rnd_near_pos (fe : FloatEnv)
    (hrnd : ∀ x : ℚ, 1 / 1024 ≤ |x| → |x| ≤ 1048576 →
      |fe.rnd x - x| ≤ |x| / 4503599627370496)
    (x M : ℚ) (hlo : 1 / 1024 ≤ x) (hM : x ≤ M) (hM2 : M ≤ 1048576) :
    x - M / 4503599627370496 ≤ fe.rnd x ∧ fe.rnd x ≤ x + M / 4503599627370496 := by
  have hx : |x| = x := abs_of_nonneg (by linarith)
  exact rnd_near fe hrnd x M (by rw [hx]; exact hlo) (by rw [hx]; exact hM) hM2

theorem sizing_1000_values (fe : FloatEnv)
    (hrnd : ∀ x : ℚ, 1 / 1024 ≤ |x| → |x| ≤ 1048576 →
      |fe.rnd x - x| ≤ |x| / 4503599627370496)
    (hlog : -460518 / 100000 ≤ fe.log (fe.rnd (1 / 100)) ∧
      fe.log (fe.rnd (1 / 100)) ≤ -460517 / 100000) :
    (Double.fin (fe.rnd (1 / 100))).eq (Double.fin 0) = false ∧
    sizing_bits fe 1000 (Double.fin (fe.rnd (1 / 100))) = some 9585 ∧
    sizing_hashes fe (Double.fin (fe.rnd (1 / 100))) = some 7 := by
  obtain ⟨he1, he2⟩ := rnd_near_pos fe hrnd (1 / 100) (1 / 100) (by norm_num) (by norm_num)
    (by norm_num)
  have hepos : 0 < fe.rnd (1 / 100) := by
    have : (0 : ℚ) < 1 / 100 - 1 / 100 / 4503599627370496 := by norm_num
    linarith
  obtain ⟨hd1, hd2⟩ := rnd_near_pos fe hrnd (480453013918201 / 1000000000000000) 1
    (by norm_num) (by norm_num) (by norm_num)
  have hdpos : 0 < fe.rnd (480453013918201 / 1000000000000000) := by
    have : (0 : ℚ) < 480453013918201 / 1000000000000000 - 1 / 4503599627370496 := by norm_num
    linarith
  obtain ⟨hc1, hc2⟩ := rnd_near_pos fe hrnd (693147180559945 / 1000000000000000) 1
    (by norm_num) (by norm_num) (by norm_num)
  -- the quotient `log(error) / denom`
  have hx1 : -958508 / 100000 ≤
      fe.log (fe.rnd (1 / 100)) / fe.rnd (480453013918201 / 1000000000000000) := by
    rw [le_div_iff₀ hdpos]
    norm_num at hd1 hd2 ⊢
    linarith [hlog.1]
  have hx2 : fe.log (fe.rnd (1 / 100)) / fe.rnd (480453013918201 / 1000000000000000)
      ≤ -958505 / 100000 := by
    rw [div_le_iff₀ hdpos]
    norm_num at hd1 hd2 ⊢
    linarith [hlog.2]
  have hxabs : |fe.log (fe.rnd (1 / 100)) / fe.rnd (480453013918201 / 1000000000000000)|
      = -(fe.log (fe.rnd (1 / 100)) / fe.rnd (480453013918201 / 1000000000000000)) :=
    abs_of_neg (by linarith)
  obtain ⟨hq1, hq2⟩ := rnd_near fe hrnd
    (fe.log (fe.rnd (1 / 100)) / fe.rnd (480453013918201 / 1000000000000000)) 10
    (by rw [hxabs]; linarith) (by rw [hxabs]; linarith) (by norm_num)
  -- the product `dentries * bpe`
  obtain ⟨hy1, hy2⟩ := rnd_near_pos fe hrnd
    (((1000 : Int) : ℚ) * -fe.rnd (fe.log (fe.rnd (1 / 100)) /
      fe.rnd (480453013918201 / 1000000000000000))) 10000
    (by push_cast; norm_num at hq1 hq2 ⊢; linarith)
    (by push_cast; norm_num at hq1 hq2 ⊢; linarith) (by norm_num)
  -- the product `ln(2) * bpe`
  have hbl : 958504 / 100000 ≤ -fe.rnd (fe.log (fe.rnd (1 / 100)) /
      fe.rnd (480453013918201 / 1000000000000000)) := by
    norm_num at hq1 hq2 ⊢; linarith
  have hbu : -fe.rnd (fe.log (fe.rnd (1 / 100)) /
      fe.rnd (480453013918201 / 1000000000000000)) ≤ 958509 / 100000 := by
    norm_num at hq1 hq2 ⊢; linarith
  have hcl : (69314 / 100000 : ℚ) ≤ fe.rnd (693147180559945 / 1000000000000000) := by
    norm_num at hc1 hc2 ⊢; linarith
  have hcu : fe.rnd (693147180559945 / 1000000000000000) ≤ (69315 / 100000 : ℚ) := by
    norm_num at hc1 hc2 ⊢; linarith
  have hz1 : (69314 / 100000 : ℚ) * (958504 / 100000) ≤
      fe.rnd (693147180559945 / 1000000000000000) *
        -fe.rnd (fe.log (fe.rnd (1 / 100)) / fe.rnd (480453013918201 / 1000000000000000)) :=
    mul_le_mul hcl hbl (by norm_num) (by linarith)
  have hz2 : fe.rnd (693147180559945 / 1000000000000000) *
        -fe.rnd (fe.log (fe.rnd (1 / 100)) / fe.rnd (480453013918201 / 1000000000000000)) ≤
      (69315 / 100000 : ℚ) * (958509 / 100000) :=
    mul_le_mul hcu hbu (by linarith) (by norm_num)
  obtain ⟨hw1, hw2⟩ := rnd_near_pos fe hrnd
    (fe.rnd (693147180559945 / 1000000000000000) *
        -fe.rnd (fe.log (fe.rnd (1 / 100)) / fe.rnd (480453013918201 / 1000000000000000))) 10
    (by norm_num at hz1 ⊢; linarith) (by norm_num at hz2 ⊢; linarith) (by norm_num)
  refine ⟨?_, ?_, ?_⟩
  · simp only [Double.eq, decide_eq_false_iff_not]
    exact hepos.ne'
  · unfold sizing_bits sizing_bpe
    simp only [Double.log, if_pos hepos, Double.div, if_neg hdpos.ne', Double.neg, Double.ofInt,
      Double.mul, Double.toInt]
    have hnn : 0 ≤ fe.rnd (((1000 : Int) : ℚ) * -fe.rnd (fe.log (fe.rnd (1 / 100)) /
        fe.rnd (480453013918201 / 1000000000000000))) := by
      push_cast at hy1 ⊢; norm_num at hq1 hq2 hy1 ⊢; linarith
    have hfl : ⌊fe.rnd (((1000 : Int) : ℚ) * -fe.rnd (fe.log (fe.rnd (1 / 100)) /
        fe.rnd (480453013918201 / 1000000000000000)))⌋ = 9585 := by
      rw [Int.floor_eq_iff]
      push_cast at hy1 hy2 ⊢
      norm_num at hq1 hq2 hy1 hy2 ⊢
      constructor <;> linarith
    rw [if_pos hnn, hfl]
    simp [INT_MIN, INT_MAX]
  · unfold sizing_hashes sizing_bpe
    simp only [Double.log, if_pos hepos, Double.div, if_neg hdpos.ne', Double.neg,
      Double.mul, Double.ceil, Double.toInt]
    have hce : ⌈fe.rnd (fe.rnd (693147180559945 / 1000000000000000) *
        -fe.rnd (fe.log (fe.rnd (1 / 100)) / fe.rnd (480453013918201 / 1000000000000000)))⌉
        = 7 := by
      rw [Int.ceil_eq_iff]
      norm_num at hz1 hz2 hw1 hw2 ⊢
      constructor <;> linarith
    rw [hce]
    simp [INT_MIN, INT_MAX]

/-- Claim C9. Sizing determinism: `bloom_init` with 1000 entries and the double
nearest `0.01` stores `bits = 9585`, `bytes = 1199` and `hashes = 7` - with
`bpe = -(log(error) / 0.480453013918201)`, `bits` the truncation of
`entries * bpe`, and `hashes` the ceiling of `0.693147180559945 * bpe` - and
returns `0` with the filter ready when `calloc` returns a block.  The
floating-point environment is any whose rounding has relative error at most
`2^-52` on magnitudes between `2^-10` and `2^20` and whose `log` returns a value
between `-4.60518` and `-4.60517` at that argument. -/
theorem sizing_1000 (fe : FloatEnv) (calloc_ok : Bool) (bl : bloom)
    (hrnd : ∀ x : ℚ, 1 / 1024 ≤ |x| → |x| ≤ 1048576 →
      |fe.rnd x - x| ≤ |x| / 4503599627370496)
    (hlog : -460518 / 100000 ≤ fe.log (fe.rnd (1 / 100)) ∧
      fe.log (fe.rnd (1 / 100)) ≤ -460517 / 100000) :
    bloom_init fe calloc_ok bl 1000 (Double.fin (fe.rnd (1 / 100))) =
      some (if calloc_ok = true then 0 else 1,
        { entries := 1000, error := Double.fin (fe.rnd (1 / 100)), bits := 9585, bytes := 1199,
          hashes := 7,
          bpe := Double.fin (-fe.rnd (fe.log (fe.rnd (1 / 100)) /
            fe.rnd (480453013918201 / 1000000000000000))),
          bf := alloc calloc_ok 1199,
          ready := if calloc_ok = true then 1 else 0 }) := by
  obtain ⟨h2, hb, hh⟩ := sizing_1000_values fe hrnd hlog
  rw [bloom_init_sized fe calloc_ok bl 1000 _ 9585 7 (by norm_num) h2 hb hh]
  have hbytes : sizing_bytes 9585 = 1199 := rfl
  have hsize : toSizeT 1199 = 1199 := rfl
  have hepos : 0 < fe.rnd (1 / 100) := by
    have hn := (rnd_near_pos fe hrnd (1 / 100) (1 / 100) (by norm_num) (by norm_num)
      (by norm_num)).1
    have : (0 : ℚ) < 1 / 100 - 1 / 100 / 4503599627370496 := by norm_num
    linarith
  have hdne : fe.rnd (480453013918201 / 1000000000000000) ≠ 0 := by
    have hn := (rnd_near_pos fe hrnd (480453013918201 / 1000000000000000) 1
      (by norm_num) (by norm_num) (by norm_num)).1
    have : (0 : ℚ) < 480453013918201 / 1000000000000000 - 1 / 4503599627370496 := by norm_num
    linarith
  have hbpe : sizing_bpe fe (Double.fin (fe.rnd (1 / 100))) =
      Double.fin (-fe.rnd (fe.log (fe.rnd (1 / 100)) /
        fe.rnd (480453013918201 / 1000000000000000))) := by
    simp only [sizing_bpe, Double.log, if_pos hepos, Double.div, if_neg hdne, Double.neg]
  rw [hbytes, hsize, hbpe]

theorem sizing_1000_witness :
    (∀ x : ℚ, 1 / 1024 ≤ |x| → |x| ≤ 1048576 → |fe0.rnd x - x| ≤ |x| / 4503599627370496) ∧
    (-460518 / 100000 ≤ fe0.log (fe0.rnd (1 / 100)) ∧
      fe0.log (fe0.rnd (1 / 100)) ≤ -460517 / 100000) ∧
    bloom_init fe0 true blank 1000 (Double.fin (fe0.rnd (1 / 100))) =
      some (if true = true then 0 else 1,
        { entries := 1000, error := Double.fin (fe0.rnd (1 / 100)), bits := 9585, bytes := 1199,
          hashes := 7,
          bpe := Double.fin (-fe0.rnd (fe0.log (fe0.rnd (1 / 100)) /
            fe0.rnd (480453013918201 / 1000000000000000))),
          bf := alloc true 1199,
          ready := if true = true then 1 else 0 }) := by
  have hrnd : ∀ x : ℚ, 1 / 1024 ≤ |x| → |x| ≤ 1048576 →
      |fe0.rnd x - x| ≤ |x| / 4503599627370496 := by
    intro x _ _
    simp only [fe0, id, sub_self, abs_zero]
    positivity
  have hlog : -460518 / 100000 ≤ fe0.log (fe0.rnd (1 / 100)) ∧
      fe0.log (fe0.rnd (1 / 100)) ≤ -460517 / 100000 := by
    norm_num [fe0]
  exact ⟨hrnd, hlog, sizing_1000 fe0 true blank hrnd hlog⟩

/-! ## The intersection estimate -/

/-- Claim C10. Incompatible shapes: when the two filters differ in `bits` or in
`hashes`, `bloom_intersect_est` returns `-1.0` and leaves both filters as they
are; this holds whatever the two blocks are, also `NULL` or released, and
whatever `malloc` would return, so no block is accessed. -/
theorem intersect_est_incompatible (fe : FloatEnv) (malloc_ok : Bool) (b1 b2 : bloom)
    (h : b1.bits ≠ b2.bits ∨ b1.hashes ≠ b2.hashes) :
    bloom_intersect_est fe malloc_ok b1 b2 = some (Double.fin (-1), b1, b2) ∧
    ∀ p1 p2 : Ptr,
      bloom_intersect_est fe malloc_ok { b1 with bf := p1 } { b2 with bf := p2 }
        = some (Double.fin (-1), { b1 with bf := p1 }, { b2 with bf := p2 }) := by
  constructor
  · unfold bloom_intersect_est
    rw [if_pos h]
  · intro p1 p2
    unfold bloom_intersect_est
    rw [if_pos h]

theorem intersect_est_incompatible_witness :
    (filter9.bits ≠ tiny.bits ∨ filter9.hashes ≠ tiny.hashes) ∧
    bloom_intersect_est fe0 true filter9 tiny = some (Double.fin (-1), filter9, tiny) ∧
    ∀ p1 p2 : Ptr,
      bloom_intersect_est fe0 true { filter9 with bf := p1 } { tiny with bf := p2 }
        = some (Double.fin (-1), { filter9 with bf := p1 }, { tiny with bf := p2 }) :=
  ⟨Or.inl (by decide), intersect_est_incompatible fe0 true filter9 tiny (Or.inl (by decide))⟩

/-! ## The exact effect of `bloom_add`, and the bounds of its accesses -/

/-- Claim C16. Exact effect of `bloom_add` on a ready filter with at least one
bit: the call returns, a bit is set afterwards exactly when it was set before
or is one of the `hashes` derived positions of the input, every bit outside the
derived positions is as before, and no field but the block changes. -/
theorem add_exact_effect (murmurhash2 : Hash) (bl : bloom) (hr : Ready bl)
    (h1 : 1 ≤ bl.bits) (buffer : List Nat) (len : Int) :
    ∃ r bl1, bloom_add murmurhash2 bl buffer len = some (r, bl1) ∧
      (∀ y, bl1.bf.bit y = true ↔
        (bl.bf.bit y = true ∨
          ∃ i, i < toUInt bl.hashes ∧ derived murmurhash2 bl buffer len i = y)) ∧
      (∀ y, (∀ i, i < toUInt bl.hashes → derived murmurhash2 bl buffer len i ≠ y) →
        bl1.bf.bit y = bl.bf.bit y) ∧
      bl1.entries = bl.entries ∧ bl1.error = bl.error ∧ bl1.bits = bl.bits ∧
      bl1.bytes = bl.bytes ∧ bl1.hashes = bl.hashes ∧ bl1.ready = bl.ready ∧
      bl1.bpe = bl.bpe := by
  obtain ⟨data, hbf, -⟩ := hr.buffer
  obtain ⟨r, data1, hspec, -, -, hbit, -⟩ :=
    bloom_check_add_spec murmurhash2 bl hr h1 data hbf buffer len 1
  have hiff : ∀ y, (Ptr.block data1).bit y = true ↔
      (bl.bf.bit y = true ∨
        ∃ i, i < toUInt bl.hashes ∧ derived murmurhash2 bl buffer len i = y) := by
    intro y
    rw [hbit y, hbf]
    constructor
    · rintro (h | ⟨-, h⟩)
      · exact Or.inl h
      · exact Or.inr h
    · rintro (h | h)
      · exact Or.inl h
      · exact Or.inr ⟨one_ne_zero, h⟩
  refine ⟨r, _, hspec, hiff, ?_, rfl, rfl, rfl, rfl, rfl, rfl, rfl⟩
  intro y hy
  have h := hiff y
  cases hb : bl.bf.bit y with
  | true => exact h.2 (Or.inl hb)
  | false =>
    cases hb1 : (Ptr.block data1).bit y with
    | false => rfl
    | true =>
      rcases h.1 hb1 with h2 | ⟨i, hi, hpos⟩
      · rw [hb] at h2; cases h2
      · exact absurd hpos (hy i hi)

theorem add_exact_effect_witness :
    Ready filter9 ∧ 1 ≤ filter9.bits ∧
    ∃ r bl1, bloom_add hash0 filter9 [1, 2] 2 = some (r, bl1) ∧
      (∀ y, bl1.bf.bit y = true ↔
        (filter9.bf.bit y = true ∨
          ∃ i, i < toUInt filter9.hashes ∧ derived hash0 filter9 [1, 2] 2 i = y)) ∧
      (∀ y, (∀ i, i < toUInt filter9.hashes → derived hash0 filter9 [1, 2] 2 i ≠ y) →
        bl1.bf.bit y = filter9.bf.bit y) ∧
      bl1.entries = filter9.entries ∧ bl1.error = filter9.error ∧ bl1.bits = filter9.bits ∧
      bl1.bytes = filter9.bytes ∧ bl1.hashes = filter9.hashes ∧ bl1.ready = filter9.ready ∧
      bl1.bpe = filter9.bpe :=
  ⟨ready_filter9, by decide,
    add_exact_effect hash0 filter9 ready_filter9 (by decide) [1, 2] 2⟩

theorem sizing_bytes_ceil (bits : Int) (h0 : 0 ≤ bits) :
    bits ≤ 8 * sizing_bytes bits ∧ (0 < bits → 8 * (sizing_bytes bits - 1) < bits) ∧
      (bits = 0 → sizing_bytes bits = 0) := by
  unfold sizing_bytes
  rw [Int.tmod_eq_emod h0 (by norm_num), Int.tdiv_eq_ediv h0 (by norm_num)]
  split_ifs <;> refine ⟨by omega, fun _ => by omega, fun _ => by omega⟩

/-- Claim C17. Buffer bounds: for `bits ≥ 0` the `bytes` that `bloom_init`
computes is the ceiling of `bits / 8`; hence on a ready filter with at least
one bit every derived position `x` satisfies `x < bits` and `x >> 3 < bytes`,
and the read of byte `x >> 3` is inside the block. The loop of
`bloom_check_add` runs its body for `i = 0 .. hashes - 1`; each iteration reads
byte `x >> 3` of the block and stores to no other, both inside the block, so it
returns a state, again a ready filter; and `bloom_check_add` returns a result
for every input, never taking the out-of-range branch. -/
theorem buffer_bounds :
    (∀ bits : Int, 0 ≤ bits →
      bits ≤ 8 * sizing_bytes bits ∧ (0 < bits → 8 * (sizing_bytes bits - 1) < bits) ∧
        (bits = 0 → sizing_bytes bits = 0)) ∧
    (∀ (fe : FloatEnv) (calloc_ok : Bool) (bl b : bloom) (entries : Int) (error : Double),
      bloom_init fe calloc_ok bl entries error = some (0, b) → b.bytes = sizing_bytes b.bits) ∧
    (∀ (murmurhash2 : Hash) (bl : bloom), Ready bl → 1 ≤ bl.bits →
      ∀ (buffer : List Nat) (len : Int) (i : Nat),
        ((derived murmurhash2 bl buffer len i : Nat) : Int) < bl.bits ∧
        (((derived murmurhash2 bl buffer len i >>> 3 : Nat)) : Int) < bl.bytes ∧
        ∃ c, bl.bf.read (derived murmurhash2 bl buffer len i >>> 3) = some c) ∧
    (∀ (murmurhash2 : Hash) (bl : bloom), Ready bl → 1 ≤ bl.bits →
      ∀ (buffer : List Nat) (len : Int) (add : Int),
        (∀ (i : Nat) (hits : Int), hits + 1 ≤ INT_MAX →
          ∃ c p, bl.bf.read (derived murmurhash2 bl buffer len i >>> 3) = some c ∧
            bl.bf.write (derived murmurhash2 bl buffer len i >>> 3)
              (c ||| (1 <<< (derived murmurhash2 bl buffer len i % 8))) = some p ∧
            Ready { bl with bf := p } ∧
            check_add_body (hash_a murmurhash2 buffer len) (hash_b murmurhash2 buffer len) add
                (hits, bl) i =
              some (if c &&& (1 <<< (derived murmurhash2 bl buffer len i % 8)) ≠ 0 then
                  (hits + 1, bl)
                else if add ≠ 0 then (hits, { bl with bf := p }) else (hits, bl))) ∧
        bloom_check_add murmurhash2 bl buffer len add =
          ((List.range bl.hashes.toNat).foldlM
            (check_add_body (hash_a murmurhash2 buffer len) (hash_b murmurhash2 buffer len) add)
            (0, bl)).bind (fun st => some (if st.1 = st.2.hashes then 1 else 0, st.2)) ∧
        ∃ r bl1, bloom_check_add murmurhash2 bl buffer len add = some (r, bl1) ∧
          Ready bl1 ∧ bl1.bits = bl.bits ∧ bl1.bytes = bl.bytes) := by
  refine ⟨sizing_bytes_ceil, ?_, ?_, ?_⟩
  · intro fe calloc_ok bl b entries error hinit
    obtain ⟨-, -, -, bits, hashes, -, -, hb⟩ :=
      (bloom_init_some_zero fe calloc_ok bl b entries error).1 hinit
    rw [hb]
  · intro murmurhash2 bl hr h1 buffer len i
    obtain ⟨data, hbf, hdl⟩ := hr.buffer
    obtain ⟨hx, hbyte⟩ := hr.covers h1 data hbf (hash_a murmurhash2 buffer len)
      (hash_b murmurhash2 buffer len) i
    have hble := hr.bits_le
    have hbytes := hr.bytes_eq
    rw [Int.tmod_eq_emod (by omega) (by norm_num), Int.tdiv_eq_ediv (by omega) (by norm_num)]
      at hbytes
    unfold INT_MAX at hble
    unfold derived
    refine ⟨?_, ?_, ?_⟩
    · unfold toUInt at hx
      omega
    · rw [shr3]
      rw [hdl] at hbyte
      unfold toSizeT at hbyte
      split_ifs at hbytes <;> omega
    · rw [hbf, shr3]
      exact ⟨data[position bl.bits (hash_a murmurhash2 buffer len)
        (hash_b murmurhash2 buffer len) i / 8], List.getElem?_eq_getElem hbyte⟩
  · intro murmurhash2 bl hr h1 buffer len add
    obtain ⟨data, hbf, hdl⟩ := hr.buffer
    refine ⟨?_, ?_, ?_⟩
    · intro i hits hhits
      have hbyte : position bl.bits (hash_a murmurhash2 buffer len)
          (hash_b murmurhash2 buffer len) i >>> 3 < data.length := by
        rw [shr3]
        exact (hr.covers h1 data hbf _ _ i).2
      have hc : data[position bl.bits (hash_a murmurhash2 buffer len)
          (hash_b murmurhash2 buffer len) i >>> 3]? = some (data.get ⟨_, hbyte⟩) :=
        List.getElem?_eq_getElem hbyte
      have hbody := check_add_body_block (hash_a murmurhash2 buffer len)
        (hash_b murmurhash2 buffer len) add hits bl i data _ hbf (hr.toUInt_bits_ne_zero h1) hc
      unfold derived
      refine ⟨data.get ⟨_, hbyte⟩, Ptr.block (data.set (position bl.bits
        (hash_a murmurhash2 buffer len) (hash_b murmurhash2 buffer len) i >>> 3)
        ((data.get ⟨_, hbyte⟩ ||| (1 <<< (position bl.bits (hash_a murmurhash2 buffer len)
          (hash_b murmurhash2 buffer len) i % 8))) % 256)), ?_, ?_, ?_, ?_⟩
      · rw [hbf]; exact hc
      · rw [hbf]
        simp only [Ptr.write, if_pos hbyte]
      · exact ⟨hr.ready, hr.bits_nonneg, hr.bits_le, hr.hashes_nonneg, hr.hashes_le, hr.bytes_eq,
          _, rfl, by rw [List.length_set]; exact hdl⟩
      · rw [hbody, if_pos hhits]
        split_ifs <;> rfl
    · exact bloom_check_add_fold murmurhash2 bl hr buffer len add
    · obtain ⟨r, data1, hspec, -⟩ :=
        bloom_check_add_spec murmurhash2 bl hr h1 data hbf buffer len add
      obtain ⟨hr1, hb1, -, hby1, -⟩ := hr.check_add h1 hspec
      exact ⟨r, _, hspec, hr1, hb1, hby1⟩

theorem buffer_bounds_witness :
    ((0 : Int) ≤ 9 ∧ (9 : Int) ≤ 8 * sizing_bytes 9 ∧ 8 * (sizing_bytes 9 - 1) < 9) ∧
    filter9.bytes = sizing_bytes filter9.bits ∧
    (Ready added9 ∧ 1 ≤ added9.bits ∧
      derived hash0 added9 [3] 1 3 = 8 ∧
      ((derived hash0 added9 [3] 1 3 : Nat) : Int) < added9.bits ∧
      (((derived hash0 added9 [3] 1 3 >>> 3 : Nat)) : Int) < added9.bytes ∧
      ∃ c, added9.bf.read (derived hash0 added9 [3] 1 3 >>> 3) = some c) ∧
    ((0 : Int) + 1 ≤ INT_MAX ∧
      ∃ c p, added9.bf.read (derived hash0 added9 [3] 1 3 >>> 3) = some c ∧
        added9.bf.write (derived hash0 added9 [3] 1 3 >>> 3)
          (c ||| (1 <<< (derived hash0 added9 [3] 1 3 % 8))) = some p ∧
        Ready { added9 with bf := p } ∧
        check_add_body (hash_a hash0 [3] 1) (hash_b hash0 [3] 1) 1 (0, added9) 3 =
          some (if c &&& (1 <<< (derived hash0 added9 [3] 1 3 % 8)) ≠ 0 then (0 + 1, added9)
            else if (1 : Int) ≠ 0 then (0, { added9 with bf := p }) else (0, added9))) ∧
    ∃ r bl1, bloom_check_add hash0 added9 [3] 1 1 = some (r, bl1) ∧
      Ready bl1 ∧ bl1.bits = added9.bits ∧ bl1.bytes = added9.bytes :=
  ⟨⟨by decide, (buffer_bounds.1 9 (by decide)).1, (buffer_bounds.1 9 (by decide)).2.1 (by decide)⟩,
    buffer_bounds.2.1 fe0 true blank filter9 1 (Double.fin (1 / 100)) init_filter9,
    ⟨ready_added9, by decide, by decide,
      buffer_bounds.2.2.1 hash0 added9 ready_added9 (by decide) [3] 1 3⟩,
    ⟨by decide, (buffer_bounds.2.2.2 hash0 added9 ready_added9 (by decide) [3] 1 1).1 3 0
      (by decide)⟩,
    (buffer_bounds.2.2.2 hash0 added9 ready_added9 (by decide) [3] 1 1).2.2⟩

/-! ## Release -/

/-- Claim C12. On a filter that is not ready, or whose block pointer is `NULL`
or live, `bloom_free` returns and leaves `ready = 0`; a second `bloom_free`
leaves that state as it is and calls `free` no more, so `free` is called at
most once over both; on a filter that is not ready `bloom_free` changes
nothing and calls `free` not at all; after `bloom_free`, `bloom_check` and
`bloom_add` return `-1` and leave the filter as it is. -/
theorem release_idempotent (murmurhash2 : Hash) (bl : bloom)
    (hlive : bl.ready ≠ 0 → bl.bf ≠ Ptr.dangling) :
    ∃ r, bloom_free bl = some r ∧ r.ready = 0 ∧ bloom_free r = some r ∧
      bloom_free_calls bl + bloom_free_calls r ≤ 1 ∧ bloom_free_calls r = 0 ∧
      (bl.ready = 0 → r = bl ∧ bloom_free_calls bl = 0) ∧
      ∀ (buffer : List Nat) (len : Int),
        bloom_check murmurhash2 r buffer len = some (-1, r) ∧
        bloom_add murmurhash2 r buffer len = some (-1, r) := by
  have hnot : ∀ b : bloom, b.ready = 0 → bloom_free b = some b ∧ bloom_free_calls b = 0 := by
    intro b hb
    unfold bloom_free bloom_free_calls
    rw [if_neg (not_not.2 hb), if_neg (not_not.2 hb)]
    cases b
    simp only at hb
    subst hb
    exact ⟨rfl, rfl⟩
  have hguard : ∀ (b : bloom) (add : Int) (buffer : List Nat) (len : Int), b.ready = 0 →
      bloom_check_add murmurhash2 b buffer len add = some (-1, b) := by
    intro b add buffer len hb
    unfold bloom_check_add
    rw [if_pos hb]
  have hfinal : ∀ r : bloom, bloom_free bl = some r → r.ready = 0 →
      (bl.ready = 0 → r = bl ∧ bloom_free_calls bl = 0) →
      ∃ r, bloom_free bl = some r ∧ r.ready = 0 ∧ bloom_free r = some r ∧
        bloom_free_calls bl + bloom_free_calls r ≤ 1 ∧ bloom_free_calls r = 0 ∧
        (bl.ready = 0 → r = bl ∧ bloom_free_calls bl = 0) ∧
        ∀ (buffer : List Nat) (len : Int),
          bloom_check murmurhash2 r buffer len = some (-1, r) ∧
          bloom_add murmurhash2 r buffer len = some (-1, r) := by
    intro r hfree hr0 hsame
    have hcalls : bloom_free_calls bl ≤ 1 := by
      unfold bloom_free_calls
      split_ifs <;> omega
    refine ⟨r, hfree, hr0, (hnot r hr0).1, ?_, (hnot r hr0).2, hsame, ?_⟩
    · rw [(hnot r hr0).2]; exact hcalls
    · intro buffer len
      exact ⟨hguard r 0 buffer len hr0, hguard r 1 buffer len hr0⟩
  by_cases hready : bl.ready = 0
  · exact hfinal bl (hnot bl hready).1 hready (fun _ => ⟨rfl, (hnot bl hready).2⟩)
  · have hp := hlive hready
    cases hbf : bl.bf with
    | dangling => exact absurd hbf hp
    | null =>
      refine hfinal { bl with bf := Ptr.null, ready := 0 } ?_ rfl (fun h => absurd h hready)
      unfold bloom_free
      rw [if_pos hready, hbf]
      rfl
    | block data =>
      refine hfinal { bl with bf := Ptr.dangling, ready := 0 } ?_ rfl (fun h => absurd h hready)
      unfold bloom_free
      rw [if_pos hready, hbf]
      rfl

theorem release_idempotent_witness :
    (filter9.ready ≠ 0 → filter9.bf ≠ Ptr.dangling) ∧
    ∃ r, bloom_free filter9 = some r ∧ r.ready = 0 ∧ bloom_free r = some r ∧
      bloom_free_calls filter9 + bloom_free_calls r ≤ 1 ∧ bloom_free_calls r = 0 ∧
      (filter9.ready = 0 → r = filter9 ∧ bloom_free_calls filter9 = 0) ∧
      ∀ (buffer : List Nat) (len : Int),
        bloom_check hash0 r buffer len = some (-1, r) ∧
        bloom_add hash0 r buffer len = some (-1, r) :=
  ⟨fun _ => by decide, release_idempotent hash0 filter9 (fun _ => by decide)⟩

/-! ## Where the code leaves the behaviour the specification describes -/

theorem init_filter_err3 :
    bloom_init fe1 true blank 1 (Double.fin 3) = some (0, filter_err3) := by
  have h8 : Int.tmod (-2) 8 = -2 := rfl
  have h9 : Int.tdiv (-2) 8 = 0 := rfl
  norm_num [bloom_init, fe1, fe0, blank, filter_err3, Double.eq, Double.log, Double.div,
    Double.neg, Double.mul, Double.ofInt, Double.ceil, Double.toInt, INT_MIN, INT_MAX, alloc,
    toSizeT, ceil_eq_neg_floor_neg, h8, h9]
  simp [List.replicate]

theorem init_filter_err15 :
    bloom_init fe1 true blank 2 (Double.fin (3 / 2)) = some (0, filter_err15) := by
  have h8 : Int.tmod (-1) 8 = -1 := rfl
  have h9 : Int.tdiv (-1) 8 = 0 := rfl
  norm_num [bloom_init, fe1, fe0, blank, filter_err15, Double.eq, Double.log, Double.div,
    Double.neg, Double.mul, Double.ofInt, Double.ceil, Double.toInt, INT_MIN, INT_MAX, alloc,
    toSizeT, ceil_eq_neg_floor_neg, h8, h9]
  simp [List.replicate]

/-- Claim C13, at the input where the code fails it: `bloom_init` with one entry
and error rate `3.0`, outside the interval `(0, 1)`, returns `0` and leaves a
ready filter with a negative `bpe`, `bits = -2` and `hashes = -1`. -/
theorem init_accepts_error_3 :
    bloom_init fe1 true blank 1 (Double.fin 3) = some (0, filter_err3) ∧
    filter_err3.ready = 1 ∧ filter_err3.error = Double.fin 3 ∧ ¬ ((3 : ℚ) < 1) ∧
    filter_err3.bits = -2 ∧ filter_err3.hashes = -1 ∧
    ∃ q : ℚ, filter_err3.bpe = Double.fin q ∧ q < 0 :=
  ⟨init_filter_err3, rfl, rfl, by norm_num, rfl, rfl, _, rfl, by norm_num⟩

/-- Claim C14, at the inputs where the code fails it: `bloom_intersect_est` does
not look at `ready`.  On a released filter it reads the released block and has
no result; on a filter that a rejected `bloom_init` has left not ready, its
block still in place, it computes an estimate (here `0.0`) from the blocks. -/
theorem intersect_est_ignores_ready :
    bloom_free filter9 = some released9 ∧ released9.ready = 0 ∧
    bloom_intersect_est fe0 true released9 released9 = none ∧
    bloom_init fe0 true filter9 0 (Double.fin (1 / 100))
      = some (1, { filter9 with ready := 0 }) ∧
    ({ filter9 with ready := 0 } : bloom).ready = 0 ∧
    bloom_intersect_est fe0 true { filter9 with ready := 0 } { filter9 with ready := 0 }
      = some (Double.fin 0, { filter9 with ready := 0 }, { filter9 with ready := 0 }) := by
  refine ⟨rfl, rfl, rfl, ?_, rfl, ?_⟩
  · simp [bloom_init]
  · have hz : ∀ b : Int, count_bits_byte 0 b = some b := by
      intro b
      rw [count_bits_byte]
      simp
    have hc : count_bits (Ptr.block [0, 0]) 2 = some 0 := by
      simp [count_bits, Ptr.read, hz, List.range, List.range.loop]
    have hor : bitwise_or true (Ptr.block [0, 0]) (Ptr.block [0, 0]) 2
        = some (Ptr.block [0, 0]) := by
      simp [bitwise_or, Ptr.read, Ptr.write, alloc, toSizeT, List.range, List.range.loop,
        List.replicate]
    simp only [bloom_intersect_est, filter9, hor, hc]
    norm_num [estimate, fe0, Double.ofIntF, Double.div, Double.sub, Double.add, Double.neg,
      Double.log, Double.mul]

/-- Claim C18, at the input where the code fails it: `bloom_init_fill` with valid
parameters and a length that differs from `bytes` returns `1` and leaves the
filter ready, so `bloom_check` and `bloom_add` on it answer `0` (or `1`), not
`-1`. -/
theorem init_fill_mismatch_leaves_ready :
    bloom_init_fill fe0 true blank 1 (Double.fin (1 / 100)) [254, 3] 1 = some (1, filter9) ∧
    filter9.bytes ≠ 1 ∧ filter9.ready = 1 ∧
    bloom_check hash0 filter9 [1, 2] 2 = some (0, filter9) ∧
    bloom_add hash0 filter9 [1, 2] 2 = some (0, { filter9 with bf := Ptr.block [254, 0] }) := by
  refine ⟨?_, by decide, rfl, rfl, rfl⟩
  unfold bloom_init_fill
  rw [init_filter9]
  simp only
  rw [if_pos (Or.inr (by decide))]

/-- Claim C19, at the input where the code fails it: `bloom_init` with one entry
and error rate `0.9`, inside `(0, 1)`, returns `0` with `bits = 0`, and every
iteration of the loop of `bloom_check_add` on that filter divides by zero. -/
theorem init_sizes_zero_bits :
    (1 : Int) ≤ 1 ∧ (0 : ℚ) < 9 / 10 ∧ (9 / 10 : ℚ) < 1 ∧
    bloom_init fe0 true blank 1 (Double.fin (9 / 10)) = some (0, tiny) ∧
    tiny.ready = 1 ∧ tiny.bits = 0 ∧
    ∀ (a b : Nat) (add hits : Int) (i : Nat), check_add_body a b add (hits, tiny) i = none :=
  ⟨by norm_num, by norm_num, by norm_num, init_tiny, rfl, rfl, fun _ _ _ _ _ => rfl⟩

/-- Claim C15 as stated fails: with first hash value `2^32 - 1` and second hash
value `1`, the code probes position `0` in iteration `1` on a filter of 9 bits,
where the integer sum gives `2^32 mod 9 = 4`; `bloom_add` leaves the block
`[63, 0]`, without bit `8`, the position the integer sum gives for iteration `5`. -/
theorem position_wraps :
    hash_a hash_wrap [] 0 = 4294967295 ∧ hash_b hash_wrap [] 0 = 1 ∧
    derived hash_wrap filter9 [] 0 1 = 0 ∧
    (hash_a hash_wrap [] 0 + 1 * hash_b hash_wrap [] 0) % 9 = 4 ∧
    (hash_a hash_wrap [] 0 + 5 * hash_b hash_wrap [] 0) % 9 = 8 ∧
    bloom_add hash_wrap filter9 [] 0 = some (0, { filter9 with bf := Ptr.block [63, 0] }) ∧
    (Ptr.block [63, 0]).bit 8 = false := by
  refine ⟨by decide, by decide, by decide, by decide, by decide, rfl, by decide⟩

/-- Claim C15, amended. On a ready filter with at least one bit, let
`a = hash(input, seed 0x9747b28c)` and `b = hash(input, seed a)` be the two
32-bit hash values and `x i = ((a + i*b) mod 2^32) mod bits`. Iteration `i` of
the loop tests mask `1 << (x i mod 8)` of byte `x i / 8`, counts a hit when it
is set and otherwise, when adding, stores that byte with the mask set;
`bloom_check_add` runs these iterations for `i = 0 .. hashes - 1`. So
`bloom_check` returns `1` when for every `i < hashes` that bit is set and `0`
when not, leaving the filter as it is; `bloom_add` returns the same value and
leaves a block in which bit `k` of byte `j` is set exactly when it was set
before or `j = x i / 8` and `k = x i mod 8` for some `i < hashes`. -/
theorem position_derivation (murmurhash2 : Hash) (bl : bloom) (hr : Ready bl) (h1 : 1 ≤ bl.bits)
    (data : List Nat) (hbf : bl.bf = Ptr.block data) (buffer : List Nat) (len : Int)
    (a b : Nat) (ha : a = murmurhash2 buffer len 0x9747b28c % 4294967296)
    (hb : b = murmurhash2 buffer len a % 4294967296)
    (x : Nat → Nat) (hx : ∀ i, x i = ((a + i * b) % 4294967296) % bl.bits.toNat) :
    (∀ (add hits : Int) (i : Nat), hits + 1 ≤ INT_MAX →
      ∃ c, data[x i / 8]? = some c ∧
        check_add_body a b add (hits, bl) i =
          some (if c &&& (1 <<< (x i % 8)) ≠ 0 then (hits + 1, bl)
            else if add ≠ 0 then
              (hits, { bl with
                bf := Ptr.block (data.set (x i / 8) ((c ||| (1 <<< (x i % 8))) % 256)) })
            else (hits, bl))) ∧
    (∀ add : Int, bloom_check_add murmurhash2 bl buffer len add =
      ((List.range bl.hashes.toNat).foldlM (check_add_body a b add) (0, bl)).bind
        (fun st => some (if st.1 = st.2.hashes then 1 else 0, st.2))) ∧
    (∃ r, bloom_check murmurhash2 bl buffer len = some (r, bl) ∧
      (r = 1 ↔ ∀ i, i < bl.hashes.toNat →
        ∃ c, data[x i / 8]? = some c ∧ c &&& (1 <<< (x i % 8)) ≠ 0) ∧
      (r = 0 ↔ ¬ ∀ i, i < bl.hashes.toNat →
        ∃ c, data[x i / 8]? = some c ∧ c &&& (1 <<< (x i % 8)) ≠ 0)) ∧
    (∃ r data1, bloom_add murmurhash2 bl buffer len
        = some (r, { bl with bf := Ptr.block data1 }) ∧
      data1.length = data.length ∧
      (∀ j k, k < 8 → ((∃ c, data1[j]? = some c ∧ c &&& (1 <<< k) ≠ 0) ↔
        ((∃ c, data[j]? = some c ∧ c &&& (1 <<< k) ≠ 0) ∨
          ∃ i, i < bl.hashes.toNat ∧ x i / 8 = j ∧ x i % 8 = k))) ∧
      (r = 1 ↔ ∀ i, i < bl.hashes.toNat →
        ∃ c, data[x i / 8]? = some c ∧ c &&& (1 <<< (x i % 8)) ≠ 0) ∧
      (r = 0 ↔ ¬ ∀ i, i < bl.hashes.toNat →
        ∃ c, data[x i / 8]? = some c ∧ c &&& (1 <<< (x i % 8)) ≠ 0)) := by
  subst ha
  subst hb
  have hxp : ∀ i, x i = position bl.bits (murmurhash2 buffer len 0x9747b28c % 4294967296)
      (murmurhash2 buffer len (murmurhash2 buffer len 0x9747b28c % 4294967296) % 4294967296)
      i := by
    intro i
    rw [hx]
    unfold position
    rw [Nat.add_mod_mod, hr.toUInt_bits_toNat]
  have hxd : ∀ i, x i = derived murmurhash2 bl buffer len i := hxp
  have hall : all_set murmurhash2 bl buffer len ↔ ∀ i, i < bl.hashes.toNat →
      ∃ c, data[x i / 8]? = some c ∧ c &&& (1 <<< (x i % 8)) ≠ 0 := by
    unfold all_set
    rw [hr.toUInt_hashes_toNat, hbf]
    simp only [bit_block_mask, hxd]
  refine ⟨?_, ?_, ?_, ?_⟩
  · intro add hits i hh
    have hbyte : position bl.bits (murmurhash2 buffer len 0x9747b28c % 4294967296)
        (murmurhash2 buffer len (murmurhash2 buffer len 0x9747b28c % 4294967296) % 4294967296)
        i >>> 3 < data.length := by
      rw [shr3]
      exact (hr.covers h1 data hbf _ _ i).2
    have hc := List.getElem?_eq_getElem hbyte
    rw [hxp i, ← shr3]
    refine ⟨_, hc, ?_⟩
    rw [check_add_body_block _ _ add hits bl i data _ hbf (hr.toUInt_bits_ne_zero h1) hc,
      if_pos hh]
    split_ifs <;> rfl
  · intro add
    exact bloom_check_add_fold murmurhash2 bl hr buffer len add
  · obtain ⟨r, data1, hspec, -, hsame, -, hr1, hr0⟩ :=
      bloom_check_add_spec murmurhash2 bl hr h1 data hbf buffer len 0
    rw [hsame rfl, ← hbf] at hspec
    exact ⟨r, hspec, hr1.trans hall, hr0.trans (not_congr hall)⟩
  · obtain ⟨r, data1, hspec, hlen, -, hbit, hr1, hr0⟩ :=
      bloom_check_add_spec murmurhash2 bl hr h1 data hbf buffer len 1
    refine ⟨r, data1, hspec, hlen, ?_, hr1.trans hall, hr0.trans (not_congr hall)⟩
    intro j k hk
    have hb := hbit (8 * j + k)
    rw [bit_block_mask, bit_block_mask, hr.toUInt_hashes_toNat] at hb
    have hj : (8 * j + k) / 8 = j := by omega
    have hk8 : (8 * j + k) % 8 = k := by omega
    rw [hj, hk8] at hb
    rw [hb]
    constructor
    · rintro (h | ⟨-, i, hi, hd⟩)
      · exact Or.inl h
      · right
        refine ⟨i, hi, ?_, ?_⟩
        · rw [hxd i, hd]; exact hj
        · rw [hxd i, hd]; exact hk8
    · rintro (h | ⟨i, hi, hxj, hxk⟩)
      · exact Or.inl h
      · right
        refine ⟨by decide, i, hi, ?_⟩
        rw [← hxd i]
        omega

theorem position_derivation_witness :
    Ready filter9 ∧ 1 ≤ filter9.bits ∧ filter9.bf = Ptr.block [0, 0] ∧
    (4294967295 : Nat) = hash_wrap [] 0 0x9747b28c % 4294967296 ∧
    (1 : Nat) = hash_wrap [] 0 4294967295 % 4294967296 ∧
    (∃ c, ([0, 0] : List Nat)[((4294967295 + 1 * 1) % 4294967296) % filter9.bits.toNat / 8]?
        = some c ∧
      check_add_body 4294967295 1 1 (0, filter9) 1 =
        some (if c &&& (1 <<< (((4294967295 + 1 * 1) % 4294967296) % filter9.bits.toNat % 8)) ≠ 0
          then (0 + 1, filter9)
          else if (1 : Int) ≠ 0 then
            (0, { filter9 with
              bf := Ptr.block (([0, 0] : List Nat).set
                (((4294967295 + 1 * 1) % 4294967296) % filter9.bits.toNat / 8)
                ((c ||| (1 <<< (((4294967295 + 1 * 1) % 4294967296) % filter9.bits.toNat % 8)))
                  % 256)) })
          else (0, filter9))) ∧
    (∃ r data1, bloom_add hash_wrap filter9 [] 0
        = some (r, { filter9 with bf := Ptr.block data1 }) ∧
      data1.length = ([0, 0] : List Nat).length ∧
      (∀ j k, k < 8 → ((∃ c, data1[j]? = some c ∧ c &&& (1 <<< k) ≠ 0) ↔
        ((∃ c, ([0, 0] : List Nat)[j]? = some c ∧ c &&& (1 <<< k) ≠ 0) ∨
          ∃ i, i < filter9.hashes.toNat ∧
            ((4294967295 + i * 1) % 4294967296) % filter9.bits.toNat / 8 = j ∧
            ((4294967295 + i * 1) % 4294967296) % filter9.bits.toNat % 8 = k))) ∧
      (r = 1 ↔ ∀ i, i < filter9.hashes.toNat →
        ∃ c, ([0, 0] : List Nat)[((4294967295 + i * 1) % 4294967296) % filter9.bits.toNat / 8]?
            = some c ∧
          c &&& (1 <<< (((4294967295 + i * 1) % 4294967296) % filter9.bits.toNat % 8)) ≠ 0) ∧
      (r = 0 ↔ ¬ ∀ i, i < filter9.hashes.toNat →
        ∃ c, ([0, 0] : List Nat)[((4294967295 + i * 1) % 4294967296) % filter9.bits.toNat / 8]?
            = some c ∧
          c &&& (1 <<< (((4294967295 + i * 1) % 4294967296) % filter9.bits.toNat % 8)) ≠ 0)) :=
  ⟨ready_filter9, by decide, rfl, by decide, by decide,
    (position_derivation hash_wrap filter9 ready_filter9 (by decide) [0, 0] rfl [] 0
      4294967295 1 (by decide) (by decide)
      (fun i => ((4294967295 + i * 1) % 4294967296) % filter9.bits.toNat) (fun _ => rfl)).1
      1 0 1 (by decide),
    (position_derivation hash_wrap filter9 ready_filter9 (by decide) [0, 0] rfl [] 0
      4294967295 1 (by decide) (by decide)
      (fun i => ((4294967295 + i * 1) % 4294967296) % filter9.bits.toNat)
      (fun _ => rfl)).2.2.2⟩

/-! ## Counting bits and the union of two blocks -/

theorem count_bits_byte_zero (bits : Int) : count_bits_byte 0 bits = some bits := by
  rw [count_bits_byte]
  simp

theorem count_bits_byte_of_ne_zero (c : Nat) (bits : Int) (hc : c ≠ 0) :
    count_bits_byte c bits =
      if bits + ((c &&& 1 : Nat) : Int) ≤ INT_MAX then
        count_bits_byte (c >>> 1) (bits + ((c &&& 1 : Nat) : Int))
      else none := by
  rw [count_bits_byte]
  rw [if_neg hc]

/-- The inner loop of `count_bits` on a byte below `2^k` adds at most `k`. -/
theorem count_bits_byte_bound (k : Nat) (c : Nat) (bits : Int) (hc : c < 2 ^ k)
    (hb : bits + k ≤ INT_MAX) :
    ∃ b1, count_bits_byte c bits = some b1 ∧ bits ≤ b1 ∧ b1 ≤ bits + k := by
  induction k generalizing c bits with
  | zero =>
    have : c = 0 := by simpa using hc
    subst this
    exact ⟨bits, count_bits_byte_zero bits, le_refl _, by omega⟩
  | succ k ih =>
    by_cases h0 : c = 0
    · subst h0
      exact ⟨bits, count_bits_byte_zero bits, le_refl _, by push_cast; omega⟩
    · have h1 : c &&& 1 ≤ 1 := Nat.and_le_right
      have hstep : bits + ((c &&& 1 : Nat) : Int) ≤ INT_MAX := by
        push_cast at hb; omega
      have hshift : c >>> 1 < 2 ^ k := by
        rw [Nat.shiftRight_eq_div_pow, pow_one]
        rw [pow_succ] at hc
        omega
      obtain ⟨b1, hb1, hlo, hhi⟩ := ih (c >>> 1) (bits + ((c &&& 1 : Nat) : Int)) hshift
        (by push_cast at hb; omega)
      rw [count_bits_byte_of_ne_zero c bits h0, if_pos hstep]
      exact ⟨b1, hb1, by omega, by push_cast; omega⟩

/-- The function `count_bits` on the first `n` bytes of a block of `unsigned char`
returns a count between `0` and `8 * n`. -/
theorem count_bits_prefix (data : List Nat) (hd : is_bytes data) (n : Nat)
    (hn : n ≤ data.length) (h8 : (8 * n : Int) ≤ INT_MAX) :
    ∃ cnt, (List.range n).foldlM
        (fun bits i =>
          match (Ptr.block data).read i with
          | none => none
          | some c => count_bits_byte c bits) (0 : Int) = some cnt ∧
      0 ≤ cnt ∧ cnt ≤ 8 * n := by
  induction n with
  | zero => exact ⟨0, rfl, le_refl _, by simp⟩
  | succ n ih =>
    obtain ⟨cnt, hrun, h0, hle⟩ := ih (by omega) (by push_cast at h8; omega)
    have hlt : n < data.length := by omega
    have hc : data[n] < 2 ^ 8 := hd _ (List.getElem_mem hlt)
    obtain ⟨b1, hb1, hlo, hhi⟩ := count_bits_byte_bound 8 data[n] cnt hc
      (by push_cast at h8 ⊢; omega)
    rw [foldlM_range_succ, hrun, Option.some_bind]
    simp only [Ptr.read, List.getElem?_eq_getElem hlt]
    exact ⟨b1, hb1, by omega, by push_cast at hhi ⊢; omega⟩

/-- The function `bitwise_or` applied to a block of `unsigned char` and itself
returns a block with the same bytes. -/
theorem bitwise_or_self (data : List Nat) (hd : is_bytes data) (len : Int)
    (hlen : len.toNat = data.length) (hsize : toSizeT len = data.length) :
    bitwise_or true (Ptr.block data) (Ptr.block data) len = some (Ptr.block data) := by
  have key : ∀ k, k ≤ data.length →
      ∃ r : List Nat, (List.range k).foldlM
          (fun res i =>
            match (Ptr.block data).read i, (Ptr.block data).read i with
            | some x, some y => res.write i (x ||| y)
            | _, _ => none)
          (Ptr.block (List.replicate data.length 0)) = some (Ptr.block r) ∧
        r.length = data.length ∧ ∀ j, j < k → r[j]? = data[j]? := by
    intro k
    induction k with
    | zero =>
      intro _
      exact ⟨List.replicate data.length 0, rfl, by simp, fun j hj => absurd hj (by omega)⟩
    | succ k ih =>
      intro hk
      obtain ⟨r, hrun, hrl, hag⟩ := ih (by omega)
      have hlt : k < data.length := by omega
      have hc : data[k] < 256 := hd _ (List.getElem_mem hlt)
      rw [foldlM_range_succ, hrun, Option.some_bind]
      simp only [Ptr.read, List.getElem?_eq_getElem hlt, Ptr.write, hrl, hlt, if_true,
        Nat.or_self, Nat.mod_eq_of_lt hc]
      refine ⟨_, rfl, by rw [List.length_set]; exact hrl, ?_⟩
      intro j hj
      rw [List.getElem?_set]
      by_cases hkj : k = j
      · subst hkj
        rw [if_pos rfl, if_pos (by rw [hrl]; exact hlt), List.getElem?_eq_getElem hlt]
      · rw [if_neg hkj]
        exact hag j (by omega)
  obtain ⟨r, hrun, hrl, hag⟩ := key data.length (le_refl _)
  have hr : r = data := by
    apply List.ext_getElem? 
    intro j
    by_cases hj : j < data.length
    · exact hag j hj
    · rw [List.getElem?_eq_none (by omega), List.getElem?_eq_none (by omega)]
  unfold bitwise_or alloc
  rw [hlen, hsize, if_pos rfl, hrun, hr]

theorem Ready.bytes_toNat {bl : bloom} (hr : Ready bl) :
    0 ≤ bl.bytes ∧ 8 * bl.bytes ≤ bl.bits + 7 ∧ toSizeT bl.bytes = bl.bytes.toNat := by
  have hb := hr.bytes_eq
  have h0 := hr.bits_nonneg
  have h1 := hr.bits_le
  rw [Int.tmod_eq_emod h0 (by norm_num), Int.tdiv_eq_ediv h0 (by norm_num)] at hb
  unfold INT_MAX at h1
  unfold toSizeT
  split_ifs at hb <;> refine ⟨by omega, by omega, by omega⟩

/-- The value `(n + n) - n` that `bloom_intersect_est` returns for a filter and
itself is `n` when `n` is finite, given that rounding leaves a `double` as it is
and that the double of a `double` is exact; it is a NaN when `n` is not finite. -/
theorem self_estimate (fe : FloatEnv) (n : Double) :
    ((∀ x, fe.rnd (fe.rnd x) = fe.rnd x) →
      (∀ x, fe.rnd (fe.rnd x + fe.rnd x) = fe.rnd x + fe.rnd x) →
      ∀ y, n = Double.fin (fe.rnd y) → (n.add fe n).sub fe n = n) ∧
    ((n = Double.pinf ∨ n = Double.ninf ∨ n = Double.nan) →
      (n.add fe n).sub fe n = Double.nan) := by
  constructor
  · intro hid hdbl y hn
    subst hn
    simp only [Double.sub, Double.add, Double.neg]
    rw [hdbl y]
    have : fe.rnd y + fe.rnd y + -fe.rnd y = fe.rnd y := by ring
    rw [this, hid y]
  · rintro (h | h | h) <;> subst h <;> rfl

/-- A finite value of the expression `estimate` is a rounded value. -/
theorem estimate_fin (fe : FloatEnv) (m : Double) (b : ℚ) (n : Int) (q : ℚ)
    (h : estimate fe m (Double.fin b) n = Double.fin q) : ∃ y, q = fe.rnd y := by
  unfold estimate at h
  generalize ((Double.fin (-1)).mul fe m).mul fe
    (Double.log fe ((Double.fin 1).sub fe ((Double.ofIntF fe n).div fe m))) = x at h
  cases x with
  | fin a =>
    simp only [Double.div] at h
    split_ifs at h with hb
    · simp only [Double.ofSign, Double.sign] at h
      split_ifs at h
    · cases h
      exact ⟨_, rfl⟩
  | pinf =>
    simp only [Double.div, Double.ofSign, Double.sign] at h
    split_ifs at h
  | ninf =>
    simp only [Double.div, Double.ofSign, Double.sign] at h
    split_ifs at h
  | nan => simp [Double.div] at h

/-- What `bloom_intersect_est` returns for a filter and itself, when the filter
has a block of `bytes` bytes of `unsigned char`, `malloc` returns a block and
`count_bits` returns `cnt` for the block. -/
theorem intersect_est_self (fe : FloatEnv) (f : bloom) (data : List Nat)
    (hbf : f.bf = Ptr.block data) (hd : is_bytes data) (hlen : f.bytes.toNat = data.length)
    (hsize : toSizeT f.bytes = data.length) (cnt : Int)
    (hcnt : count_bits f.bf f.bytes = some cnt) :
    bloom_intersect_est fe true f f =
      some (((estimate fe (Double.ofIntF fe f.bits) (Double.ofIntF fe f.hashes) cnt).add fe
          (estimate fe (Double.ofIntF fe f.bits) (Double.ofIntF fe f.hashes) cnt)).sub fe
          (estimate fe (Double.ofIntF fe f.bits) (Double.ofIntF fe f.hashes) cnt), f, f) := by
  have hor := bitwise_or_self data hd f.bytes hlen hsize
  unfold bloom_intersect_est
  rw [if_neg (by simp)]
  simp only
  rw [hbf] at hcnt ⊢
  rw [hor]
  simp only [hcnt]

/-- Claim C11 as stated fails: two calls of `bloom_add` bring the filter of 9
bits to the state with all 9 bits set; there the estimate of the filter is
`+inf`, and `bloom_intersect_est` of the filter and itself is a NaN. -/
theorem self_intersection_saturated :
    run hash0 [Op.add [1] 1, Op.add [2] 1] filter9 = some sat9 ∧
    count_bits sat9.bf sat9.bytes = some 9 ∧
    estimate fe0 (Double.ofIntF fe0 sat9.bits) (Double.ofIntF fe0 sat9.hashes) 9 = Double.pinf ∧
    bloom_intersect_est fe0 true sat9 sat9 = some (Double.nan, sat9, sat9) := by
  have hcnt : count_bits sat9.bf sat9.bytes = some 9 := by
    simp [count_bits, sat9, filter9, Ptr.read, count_bits_byte_zero, count_bits_byte_of_ne_zero,
      INT_MAX, List.range, List.range.loop]
  have hest : estimate fe0 (Double.ofIntF fe0 sat9.bits) (Double.ofIntF fe0 sat9.hashes) 9
      = Double.pinf := by
    norm_num [estimate, sat9, filter9, fe0, Double.ofIntF, Double.div, Double.sub, Double.add,
      Double.neg, Double.log, Double.mul, Double.ofSign, Double.sign]
  refine ⟨rfl, hcnt, hest, ?_⟩
  rw [intersect_est_self fe0 sat9 [255, 1] rfl (by intro c hc; simp at hc; omega) rfl rfl 9 hcnt,
    hest]
  rfl

/-- Claim C11, amended. For a ready filter `f` whose block holds `unsigned char`
values, with `malloc` returning a block: `bitwise_or` of the block with itself
returns the bytes of the block, so the count of the union is the count of `f`;
`count_bits` returns a count when `bits ≤ INT_MAX - 7`; and with `n` the
estimate `-1.0*m*log(1.0-cnt/m)/k` of `f`, `bloom_intersect_est(f, f)` returns
`(n + n) - n` and both filters as they were: that is `n` when `n` is finite
(given that rounding leaves a `double` as it is and doubling is exact), and a
NaN when `n` is infinite or a NaN. -/
theorem self_intersection (fe : FloatEnv) (f : bloom) (hr : Ready f) (data : List Nat)
    (hbf : f.bf = Ptr.block data) (hd : is_bytes data) :
    bitwise_or true f.bf f.bf f.bytes = some f.bf ∧
    (f.bits ≤ INT_MAX - 7 → ∃ cnt, count_bits f.bf f.bytes = some cnt) ∧
    ∀ cnt, count_bits f.bf f.bytes = some cnt →
      bloom_intersect_est fe true f f =
        some (((estimate fe (Double.ofIntF fe f.bits) (Double.ofIntF fe f.hashes) cnt).add fe
          (estimate fe (Double.ofIntF fe f.bits) (Double.ofIntF fe f.hashes) cnt)).sub fe
          (estimate fe (Double.ofIntF fe f.bits) (Double.ofIntF fe f.hashes) cnt), f, f) ∧
      ((∀ x, fe.rnd (fe.rnd x) = fe.rnd x) →
        (∀ x, fe.rnd (fe.rnd x + fe.rnd x) = fe.rnd x + fe.rnd x) →
        ∀ q, estimate fe (Double.ofIntF fe f.bits) (Double.ofIntF fe f.hashes) cnt
            = Double.fin q →
          bloom_intersect_est fe true f f = some (Double.fin q, f, f)) ∧
      ((estimate fe (Double.ofIntF fe f.bits) (Double.ofIntF fe f.hashes) cnt = Double.pinf ∨
        estimate fe (Double.ofIntF fe f.bits) (Double.ofIntF fe f.hashes) cnt = Double.ninf ∨
        estimate fe (Double.ofIntF fe f.bits) (Double.ofIntF fe f.hashes) cnt = Double.nan) →
        bloom_intersect_est fe true f f = some (Double.nan, f, f)) := by
  obtain ⟨d, hd1, hdl⟩ := hr.buffer
  rw [hbf] at hd1
  cases hd1
  obtain ⟨hb0, hb8, hbn⟩ := hr.bytes_toNat
  have hlen : f.bytes.toNat = data.length := by rw [hdl, hbn]
  refine ⟨?_, ?_, ?_⟩
  · rw [hbf]
    exact bitwise_or_self data hd f.bytes hlen hdl.symm
  · intro hsmall
    unfold INT_MAX at hsmall
    obtain ⟨cnt, hcnt, -⟩ := count_bits_prefix data hd f.bytes.toNat (by omega)
      (by unfold INT_MAX; omega)
    refine ⟨cnt, ?_⟩
    unfold count_bits
    rw [hbf]
    exact hcnt
  · intro cnt hcnt
    have hself := intersect_est_self fe f data hbf hd hlen hdl.symm cnt hcnt
    refine ⟨hself, ?_, ?_⟩
    · intro hid hdbl q hq
      obtain ⟨y, hy⟩ := estimate_fin fe _ _ cnt q hq
      rw [hself, (self_estimate fe _).1 hid hdbl y (by rw [hq, hy]), hq]
    · intro hinf
      rw [hself, (self_estimate fe _).2 hinf]

theorem self_intersection_witness :
    Ready added9 ∧ added9.bf = Ptr.block [254, 0] ∧ is_bytes [254, 0] ∧
    bitwise_or true added9.bf added9.bf added9.bytes = some added9.bf ∧
    added9.bits ≤ INT_MAX - 7 ∧
    count_bits added9.bf added9.bytes = some 7 ∧
    (∃ cnt, count_bits added9.bf added9.bytes = some cnt) ∧
    estimate fe2 (Double.ofIntF fe2 added9.bits) (Double.ofIntF fe2 added9.hashes) 7
      = Double.fin (169209 / 87500) ∧
    bloom_intersect_est fe2 true added9 added9
      = some (Double.fin (169209 / 87500), added9, added9) := by
  have hd : is_bytes [254, 0] := by
    intro c hc
    simp at hc
    omega
  have hcnt : count_bits added9.bf added9.bytes = some 7 := by
    simp [count_bits, added9, filter9, Ptr.read, count_bits_byte_zero,
      count_bits_byte_of_ne_zero, INT_MAX, List.range, List.range.loop]
  have hest : estimate fe2 (Double.ofIntF fe2 added9.bits) (Double.ofIntF fe2 added9.hashes) 7
      = Double.fin (169209 / 87500) := by
    norm_num [estimate, added9, filter9, fe2, Double.ofIntF, Double.div, Double.sub,
      Double.add, Double.neg, Double.log, Double.mul]
  have h := self_intersection fe2 added9 ready_added9 [254, 0] rfl hd
  exact ⟨ready_added9, rfl, hd, h.1, by decide, hcnt, h.2.1 (by decide), hest,
    (h.2.2 7 hcnt).2.1 (fun _ => rfl) (fun _ => rfl) _ hest⟩

/-! ## Padding bits -/

theorem Ready.of_same_shape {bl bl1 : bloom} (hr : Ready bl) (h : same_shape bl bl1) :
    Ready bl1 := by
  obtain ⟨hf, hb⟩ := h
  obtain ⟨data, hbf, hdl⟩ := hr.buffer
  obtain ⟨data1, hbf1, hdl1⟩ := hb data hbf
  rw [hf]
  exact ⟨hr.ready, hr.bits_nonneg, hr.bits_le, hr.hashes_nonneg, hr.hashes_le, hr.bytes_eq,
    data1, hbf1, hdl1.trans hdl⟩

theorem check_add_body_is_bytes (a b : Nat) (add : Int) (st st1 : Int × bloom) (i : Nat)
    (h : check_add_body a b add st i = some st1)
    (hd : ∀ data, st.2.bf = Ptr.block data → is_bytes data) :
    ∀ data, st1.2.bf = Ptr.block data → is_bytes data := by
  unfold check_add_body at h
  by_cases hz : toUInt st.2.bits = 0
  · rw [if_pos hz] at h; cases h
  rw [if_neg hz] at h
  cases hread : st.2.bf.read (position st.2.bits a b i >>> 3) with
  | none => simp [hread] at h
  | some c =>
    simp only [hread] at h
    by_cases hs : c &&& 1 <<< (position st.2.bits a b i % 8) ≠ 0
    · rw [if_pos hs] at h
      split_ifs at h
      cases h; exact hd
    · rw [if_neg hs] at h
      by_cases ha : add ≠ 0
      · rw [if_pos ha] at h
        cases hbf : st.2.bf with
        | null => simp [hbf, Ptr.write] at h
        | dangling => simp [hbf, Ptr.write] at h
        | block data =>
          simp only [hbf, Ptr.write] at h
          split_ifs at h with hlt
          cases h
          intro d hd1
          cases hd1
          intro x hx
          rcases List.mem_or_eq_of_mem_set hx with hx | hx
          · exact hd data hbf x hx
          · rw [hx]
            exact Nat.mod_lt _ (by norm_num)
      · rw [if_neg ha] at h
        cases h; exact hd

theorem bloom_check_add_is_bytes (murmurhash2 : Hash) (bl bl1 : bloom) (buffer : List Nat)
    (len add r : Int) (h : bloom_check_add murmurhash2 bl buffer len add = some (r, bl1))
    (hd : ∀ data, bl.bf = Ptr.block data → is_bytes data) :
    ∀ data, bl1.bf = Ptr.block data → is_bytes data := by
  unfold bloom_check_add at h
  split_ifs at h with hready
  · cases h; exact hd
  · simp only at h
    split at h
    · cases h
    · rename_i hits bl2 hfold
      have := foldlM_preserves _
        (fun s t : Int × bloom => (∀ data, s.2.bf = Ptr.block data → is_bytes data) →
          ∀ data, t.2.bf = Ptr.block data → is_bytes data)
        (fun _ h => h) (fun _ _ _ h1 h2 h => h2 (h1 h))
        (fun s i t hst => check_add_body_is_bytes _ _ _ s t i hst) _ _ _ hfold hd
      split_ifs at h <;> cases h <;> exact this

/-- On a ready filter, a call of `bloom_check_add` that returns keeps the bits
from position `bits` on clear. -/
theorem bloom_check_add_padding (murmurhash2 : Hash) (bl bl1 : bloom) (hr : Ready bl)
    (buffer : List Nat) (len add r : Int)
    (h : bloom_check_add murmurhash2 bl buffer len add = some (r, bl1))
    (hp : padding_clear bl) : padding_clear bl1 := by
  have hshape := bloom_check_add_same_shape murmurhash2 bl bl1 buffer len add r h
  refine ⟨?_, bloom_check_add_is_bytes murmurhash2 bl bl1 buffer len add r h hp.2⟩
  obtain ⟨data, hbf, hdl⟩ := hr.buffer
  by_cases h1 : 1 ≤ bl.bits
  · obtain ⟨r1, data1, hspec, -, -, hbit, -⟩ :=
      bloom_check_add_spec murmurhash2 bl hr h1 data hbf buffer len add
    rw [hspec] at h
    cases h
    intro y hy
    rcases (hbit y).1 hy with hold | ⟨-, i, -, hpos⟩
    · exact hp.1 y (by rw [hbf]; exact hold)
    · have hlt := (hr.covers h1 data hbf (hash_a murmurhash2 buffer len)
        (hash_b murmurhash2 buffer len) i).1
      have hble := hr.bits_le
      unfold INT_MAX at hble
      unfold derived at hpos
      unfold toUInt at hlt
      show (y : Int) < bl.bits
      omega
  · obtain ⟨data1, hbf1, hdl1⟩ := hshape.2 data hbf
    have hbytes := hr.bytes_toNat
    have h0 := hr.bits_nonneg
    have hempty : data1.length = 0 := by
      rw [hdl1, hdl, hbytes.2.2]
      omega
    intro y hy
    rw [hbf1, bit_block] at hy
    obtain ⟨c, hc, -⟩ := hy
    rw [List.getElem?_eq_none (by omega)] at hc
    cases hc

theorem run_padding (murmurhash2 : Hash) (ops : List Op) (bl bl1 : bloom) (hr : Ready bl)
    (h : run murmurhash2 ops bl = some bl1) (hp : padding_clear bl) :
    Ready bl1 ∧ padding_clear bl1 := by
  induction ops generalizing bl with
  | nil =>
    simp only [run] at h
    cases h
    exact ⟨hr, hp⟩
  | cons op ops ih =>
    cases op with
    | add buffer len =>
      simp only [run] at h
      cases hcall : bloom_add murmurhash2 bl buffer len with
      | none => simp [hcall] at h
      | some res =>
        obtain ⟨r, bl2⟩ := res
        simp only [hcall] at h
        exact ih bl2
          (hr.of_same_shape (bloom_check_add_same_shape murmurhash2 bl bl2 buffer len 1 r hcall))
          h (bloom_check_add_padding murmurhash2 bl bl2 hr buffer len 1 r hcall hp)
    | check buffer len =>
      simp only [run] at h
      cases hcall : bloom_check murmurhash2 bl buffer len with
      | none => simp [hcall] at h
      | some res =>
        obtain ⟨r, bl2⟩ := res
        simp only [hcall] at h
        exact ih bl2
          (hr.of_same_shape (bloom_check_add_same_shape murmurhash2 bl bl2 buffer len 0 r hcall))
          h (bloom_check_add_padding murmurhash2 bl bl2 hr buffer len 0 r hcall hp)

/-- On a ready filter whose bits from position `bits` on are clear, `count_bits`
returns a count between `0` and `bits`. -/
theorem count_bits_le_bits (bl : bloom) (hr : Ready bl) (hp : padding_clear bl) :
    ∃ cnt, count_bits bl.bf bl.bytes = some cnt ∧ 0 ≤ cnt ∧ cnt ≤ bl.bits := by
  obtain ⟨data, hbf, hdl⟩ := hr.buffer
  have hd := hp.2 data hbf
  obtain ⟨hb0, -, hbn⟩ := hr.bytes_toNat
  have hbytes := hr.bytes_eq
  have h0 := hr.bits_nonneg
  have hle := hr.bits_le
  rw [Int.tmod_eq_emod h0 (by norm_num), Int.tdiv_eq_ediv h0 (by norm_num)] at hbytes
  have hlen : data.length = bl.bytes.toNat := by rw [hdl, hbn]
  unfold count_bits
  rw [hbf]
  by_cases hr8 : bl.bits % 8 = 0
  · rw [if_neg (not_not.2 hr8)] at hbytes
    obtain ⟨cnt, hcnt, hc0, hc8⟩ := count_bits_prefix data hd bl.bytes.toNat (by omega)
      (by omega)
    exact ⟨cnt, hcnt, hc0, by omega⟩
  · rw [if_pos hr8] at hbytes
    have hq : bl.bytes.toNat = (bl.bits / 8).toNat + 1 := by omega
    rw [hq, foldlM_range_succ]
    obtain ⟨cnt, hcnt, hc0, hc8⟩ := count_bits_prefix data hd (bl.bits / 8).toNat (by omega)
      (by omega)
    rw [hcnt, Option.some_bind]
    have hlt : (bl.bits / 8).toNat < data.length := by omega
    have hc256 : data[(bl.bits / 8).toNat] < 2 ^ 8 := hd _ (List.getElem_mem hlt)
    have hsmall : data[(bl.bits / 8).toNat] < 2 ^ (bl.bits % 8).toNat := by
      apply Nat.lt_pow_two_of_testBit
      intro i hi
      by_cases hi8 : 8 ≤ i
      · exact Nat.testBit_lt_two_pow
          (lt_of_lt_of_le hc256 (Nat.pow_le_pow_right (by norm_num) hi8))
      · by_contra hset
        have hset1 : data[(bl.bits / 8).toNat].testBit i = true := by
          simpa using hset
        have hbit : (Ptr.block data).bit (8 * (bl.bits / 8).toNat + i) = true := by
          rw [bit_block]
          refine ⟨data[(bl.bits / 8).toNat], ?_, ?_⟩
          · rw [show (8 * (bl.bits / 8).toNat + i) / 8 = (bl.bits / 8).toNat by omega]
            exact List.getElem?_eq_getElem hlt
          · rw [show (8 * (bl.bits / 8).toNat + i) % 8 = i by omega]
            exact hset1
        have := hp.1 _ (by rw [hbf]; exact hbit)
        push_cast at this
        omega
    obtain ⟨b1, hb1, hlo, hhi⟩ := count_bits_byte_bound (bl.bits % 8).toNat
      data[(bl.bits / 8).toNat] cnt hsmall (by omega)
    simp only [Ptr.read, List.getElem?_eq_getElem hlt]
    exact ⟨b1, hb1, by omega, by omega⟩

/-- The property of claim C20 where `bloom_init` has computed a bit count and a
hash count that are not negative: in every state that a sequence of calls
reaches from the filter `bloom_init` has built, no bit at a position from
`bits` on is set and `count_bits` returns a count of at most `bits`; the
quotient `(float)count / m` of the estimator is then no infinity and no
value above `1`, given a rounding to `float` that is monotone, maps `0` to `0`
and values from `1` on to positive values, and a rounding to `double` that
maps values up to `1` to values up to `1`. -/
theorem padding_stays_clear (fe : FloatEnv) (murmurhash2 : Hash) (calloc_ok : Bool)
    (bl0 f0 f : bloom) (entries : Int) (error : Double) (ops : List Op)
    (hinit : bloom_init fe calloc_ok bl0 entries error = some (0, f0))
    (hb : 0 ≤ f0.bits) (hh : 0 ≤ f0.hashes)
    (hrun : run murmurhash2 ops f0 = some f) :
    (∀ y, f.bf.bit y = true → (y : Int) < f.bits) ∧
    ∃ cnt, count_bits f.bf f.bytes = some cnt ∧ 0 ≤ cnt ∧ cnt ≤ f.bits ∧
      ((∀ x y : ℚ, x ≤ y → fe.rndf x ≤ fe.rndf y) → fe.rndf 0 = 0 →
        (∀ x : ℚ, 1 ≤ x → 0 < fe.rndf x) → (∀ x : ℚ, x ≤ 1 → fe.rnd x ≤ 1) →
        (Double.ofIntF fe cnt).div fe (Double.ofIntF fe f.bits) ≠ Double.pinf ∧
        ∀ x, (Double.ofIntF fe cnt).div fe (Double.ofIntF fe f.bits) = Double.fin x → x ≤ 1) := by
  obtain ⟨-, -, -, bits, hashes, hbits, hhashes, hf0⟩ :=
    (bloom_init_some_zero fe calloc_ok bl0 f0 entries error).1 hinit
  have hbr := Double.toInt_range _ _ hbits
  have hhr := Double.toInt_range _ _ hhashes
  have hr0 : Ready f0 := by
    rw [hf0] at hb hh ⊢
    exact ⟨by simp, hb, hbr.2, hh, hhr.2, rfl, _, rfl, by simp⟩
  have hp0 : padding_clear f0 := by
    rw [hf0]
    constructor
    · intro y hy
      rw [bit_block] at hy
      obtain ⟨c, hc, hset⟩ := hy
      have hmem : c ∈ List.replicate (toSizeT (sizing_bytes bits)) 0 :=
        List.getElem?_mem hc
      rw [List.eq_of_mem_replicate hmem] at hset
      simp at hset
    · intro data hdata c hc
      cases hdata
      rw [List.eq_of_mem_replicate hc]
      norm_num
  obtain ⟨hr, hp⟩ := run_padding murmurhash2 ops f0 f hr0 hrun hp0
  obtain ⟨cnt, hcnt, hc0, hcle⟩ := count_bits_le_bits f hr hp
  refine ⟨hp.1, cnt, hcnt, hc0, hcle, ?_⟩
  intro hmono hzero hpos hone
  simp only [Double.ofIntF, Double.div]
  by_cases hm : fe.rndf (f.bits : ℚ) = 0
  · rw [if_pos hm]
    have hbits0 : f.bits = 0 := by
      by_contra hne
      have h1 : (1 : ℚ) ≤ (f.bits : ℚ) := by
        have : (1 : Int) ≤ f.bits := by
          have := hr.bits_nonneg
          omega
        exact_mod_cast this
      exact absurd hm (hpos _ h1).ne'
    have hcnt0 : cnt = 0 := by omega
    rw [hcnt0]
    simp [Double.ofSign, Double.sign, hzero]
  · rw [if_neg hm]
    refine ⟨by simp, ?_⟩
    intro x hx
    cases hx
    apply hone
    have hbits1 : (1 : ℚ) ≤ (f.bits : ℚ) := by
      have : (1 : Int) ≤ f.bits := by
        by_contra hlt
        have h0 : f.bits = 0 := by
          have := hr.bits_nonneg
          omega
        rw [h0] at hm
        exact hm (by simpa using hzero)
      exact_mod_cast this
    have hden := hpos _ hbits1
    rw [div_le_one hden]
    exact hmono _ _ (by exact_mod_cast hcle)

theorem padding_stays_clear_witness :
    bloom_init fe0 true blank 1 (Double.fin (1 / 100)) = some (0, filter9) ∧
    0 ≤ filter9.bits ∧ 0 ≤ filter9.hashes ∧
    run hash0 [Op.add [1, 2] 2] filter9 = some added9 ∧
    (∀ y, added9.bf.bit y = true → (y : Int) < added9.bits) ∧
    ∃ cnt, count_bits added9.bf added9.bytes = some cnt ∧ 0 ≤ cnt ∧ cnt ≤ added9.bits :=
  have h := padding_stays_clear fe0 hash0 true blank filter9 added9 1 (Double.fin (1 / 100))
    [Op.add [1, 2] 2] init_filter9 (by decide) (by decide) rfl
  ⟨init_filter9, by decide, by decide, rfl, h.1,
    h.2.imp fun _ hc => ⟨hc.1, hc.2.1, hc.2.2.1⟩⟩

/-- Claim C20, at the input where the code fails it: `bloom_init` with two
entries and error rate `1.5` returns `0` with `bits = -1`, one byte and no
hash position; calls of `bloom_add` and `bloom_check` leave the filter as it
is, `count_bits` returns `0` for its block, and `0` exceeds the bit count. -/
theorem count_exceeds_negative_bits :
    bloom_init fe1 true blank 2 (Double.fin (3 / 2)) = some (0, filter_err15) ∧
    filter_err15.ready = 1 ∧ filter_err15.bits = -1 ∧
    run hash0 [Op.add [1, 2] 2, Op.check [3] 1] filter_err15 = some filter_err15 ∧
    count_bits filter_err15.bf filter_err15.bytes = some 0 ∧
    ¬ ((0 : Int) ≤ filter_err15.bits) := by
  refine ⟨init_filter_err15, rfl, rfl, rfl, ?_, by decide⟩
  simp [count_bits, filter_err15, Ptr.read, count_bits_byte_zero, List.range, List.range.loop]

end Bloom
